import Mathlib

/-!
# Verification of the ssd-fairness simulator

Shallow embedding of the ssd-fairness discrete-event SSD scheduling simulator
(C++ sources: `include/types.hpp`, `include/events.hpp`, `include/ssd.hpp`,
`include/metrics.hpp`, `include/scheduler_impl.hpp`, `src/ssd.cpp`,
`src/metrics.cpp`, `src/main.cpp`).

Modelling conventions:
* C++ `double` simulation time, bandwidths and weights are modelled as `ℚ`
  (exact real arithmetic; none of the verified properties depends on binary
  floating-point rounding).
* C++ `int` tenant ids are modelled as `ℤ` (they can be negative), `uint32_t`
  sizes and `size_t` counters as `ℕ`, `int64_t` deficit counters as `ℤ`
  (the verified properties do not exercise 64-bit wrap-around).
* `std::priority_queue<Event, vector<Event>, EventCompare>` is modelled by the
  exact heap algorithms of libstdc++'s `bits/stl_heap.h` (`__push_heap`,
  `__adjust_heap`, `__pop_heap`), which is what `std::priority_queue`
  executes on the target platform; the comparator is `EventCompare`
  (`a.time > b.time`).
* Unbounded C++ loops (`while (true)` dispatch loop, the outer driver loop)
  are modelled with an explicit fuel parameter.
-/

set_option linter.unusedVariables false

namespace SSim

/-- `OpType` from `types.hpp`. -/
inductive OpType where
  | READ : OpType
  | WRITE : OpType
deriving DecidableEq, Repr, Inhabited

/-- `Request` from `types.hpp`: tenant id (C++ `int`, may be negative),
operation, arrival time (seconds), size in bytes, and the runtime
start/finish timestamps written at dispatch. -/
structure Request where
  user_id : ℤ
  op : OpType
  arrival_ts : ℚ
  size_bytes : ℕ
  start_ts : ℚ := 0
  finish_ts : ℚ := 0
deriving DecidableEq, Repr, Inhabited

/-- `SimConfig` from `types.hpp` (the fields the channel model consumes). -/
structure SimConfig where
  num_users : ℤ := 4
  num_channels : ℤ := 8
  read_bw_MBps : ℚ := 1200
  write_bw_MBps : ℚ := 800
deriving DecidableEq, Repr, Inhabited

/-! ## List access helpers

C++ `vector` indexing is modelled by `List.getD` with the element type's
default value; all verified accesses are in range. -/

/-- In-range read of a rational list (`vector<double>` cell). -/
def getQ (l : List ℚ) (i : ℕ) : ℚ := l.getD i 0

/-- Read of an integer list (`vector<int64_t>` cell). -/
def getZ (l : List ℤ) (i : ℕ) : ℤ := l.getD i 0

/-! ## Channel model (`ssd.hpp` / `ssd.cpp`) -/

/-- `kBytesPerMB = 1024.0 * 1024.0` from `ssd.cpp`. -/
def kBytesPerMB : ℚ := 1024 * 1024

/-- `bytes_per_second` from `ssd.cpp`: returns 0 when `channels <= 0`,
otherwise `(bw_MBps / channels) * kBytesPerMB`. -/
def bytes_per_second (bw_MBps : ℚ) (channels : ℤ) : ℚ :=
  if channels ≤ 0 then 0 else (bw_MBps / (channels : ℚ)) * kBytesPerMB

/-- `SSD::read_service_time_s` from `ssd.cpp`. -/
def read_service_time_s (cfg : SimConfig) (bytes : ℕ) : ℚ :=
  let rate := bytes_per_second cfg.read_bw_MBps cfg.num_channels
  if rate ≤ 0 then 0 else (bytes : ℚ) / rate

/-- `SSD::write_service_time_s` from `ssd.cpp`. -/
def write_service_time_s (cfg : SimConfig) (bytes : ℕ) : ℚ :=
  let rate := bytes_per_second cfg.write_bw_MBps cfg.num_channels
  if rate ≤ 0 then 0 else (bytes : ℚ) / rate

/-- Service time of a request: read or write path of `SSD::dispatch`. -/
def service_time (cfg : SimConfig) (r : Request) : ℚ :=
  match r.op with
  | OpType.READ => read_service_time_s cfg r.size_bytes
  | OpType.WRITE => write_service_time_s cfg r.size_bytes

/-- `SSD` state: the configuration and the per-channel `free_at` vector
(`ChannelState` from `ssd.hpp` is a single `double`). -/
structure SSDState where
  cfg : SimConfig
  channels : List ℚ
deriving DecidableEq, Repr, Inhabited

/-- `SSD::SSD(cfg)`: `channels_.assign(max(cfg.num_channels, 0), ())`. -/
def mkSSD (cfg : SimConfig) : SSDState :=
  { cfg := cfg, channels := List.replicate (max cfg.num_channels 0).toNat 0 }

/-- `SSD::dispatch` from `ssd.cpp`: throws `out_of_range` for an invalid
channel index; otherwise `start = max(now, free_at)`,
`free_at := start + service`, and the new `free_at` is returned. -/
def ssd_dispatch (s : SSDState) (channel_idx : ℤ) (r : Request) (now : ℚ) :
    Except Unit (ℚ × SSDState) :=
  if channel_idx < 0 ∨ (s.channels.length : ℤ) ≤ channel_idx then
    Except.error ()
  else
    let idx := channel_idx.toNat
    let service := service_time s.cfg r
    let start := max now (getQ s.channels idx)
    let free := start + service
    Except.ok (free, { s with channels := s.channels.set idx free })

/-- `SSD::first_free_channel` from `ssd.cpp`: the lowest-indexed channel with
`free_at <= now`, else none (C++ returns -1). -/
def first_free_channel (s : SSDState) (now : ℚ) : Option ℕ :=
  s.channels.findIdx? (fun t => t ≤ now)

/-! ## Metrics aggregator (`metrics.hpp` / `metrics.cpp`) -/

/-- `Metrics::UserStats` from `metrics.hpp`. -/
structure UserStats where
  completed : ℕ := 0
  total_latency : ℚ := 0
  bytes : ℕ := 0
deriving DecidableEq, Repr, Inhabited

/-- `Metrics` state: the per-tenant stats vector. -/
structure Metrics where
  stats : List UserStats
deriving DecidableEq, Repr, Inhabited

/-- `Metrics::reset(num_users)` / the constructor. -/
def mkMetrics (num_users : ℤ) : Metrics :=
  { stats := List.replicate (max num_users 0).toNat ({} : UserStats) }

/-- One stats cell of a metrics state (`stats_[uid]`). -/
def statsAt (m : Metrics) (uid : ℕ) : UserStats := m.stats.getD uid ({} : UserStats)

/-- `Metrics::on_finish` from `metrics.cpp`: ignores negative tenant ids,
grows the stats vector to `user_id + 1` entries when needed, then
accumulates count, clamped latency and bytes. -/
def on_finish (m : Metrics) (req : Request) : Metrics :=
  if req.user_id < 0 then m
  else
    let uid := req.user_id.toNat
    let grown :=
      if m.stats.length ≤ uid then
        m.stats ++ List.replicate (uid + 1 - m.stats.length) ({} : UserStats)
      else m.stats
    let s := grown.getD uid ({} : UserStats)
    let latency0 := req.finish_ts - req.arrival_ts
    let latency := if latency0 < 0 then 0 else latency0
    let s' : UserStats :=
      { completed := s.completed + 1
        total_latency := s.total_latency + latency
        bytes := s.bytes + req.size_bytes }
    { stats := grown.set uid s' }

/-- `Metrics::avg_latency` from `metrics.cpp`. -/
def avg_latency (m : Metrics) (user_id : ℤ) : ℚ :=
  if user_id < 0 ∨ (m.stats.length : ℤ) ≤ user_id ∨
      (statsAt m user_id.toNat).completed = 0 then 0
  else (statsAt m user_id.toNat).total_latency /
    ((statsAt m user_id.toNat).completed : ℚ)

/-- `Metrics::total_bytes` from `metrics.cpp`. -/
def total_bytes (m : Metrics) (user_id : ℤ) : ℕ :=
  if user_id < 0 ∨ (m.stats.length : ℤ) ≤ user_id then 0
  else (statsAt m user_id.toNat).bytes

/-- `Metrics::completed` from `metrics.cpp`. -/
def completed_count (m : Metrics) (user_id : ℤ) : ℕ :=
  if user_id < 0 ∨ (m.stats.length : ℤ) ≤ user_id then 0
  else (statsAt m user_id.toNat).completed

/-- The fold body of `Metrics::fairness_index`: accumulates
`(participants, sum, sum_sq)` skipping tenants with zero bytes. -/
def fairnessStep (acc : ℕ × ℚ × ℚ) (s : UserStats) : ℕ × ℚ × ℚ :=
  if s.bytes = 0 then acc
  else (acc.1 + 1, acc.2.1 + (s.bytes : ℚ), acc.2.2 + (s.bytes : ℚ) * (s.bytes : ℚ))

/-- `Metrics::fairness_index` from `metrics.cpp`: Jain's index over tenants
with nonzero bytes; 0 when there are no participants. -/
def fairness_index (m : Metrics) : ℚ :=
  let acc := m.stats.foldl fairnessStep (0, 0, 0)
  if acc.1 = 0 ∨ acc.2.2 = 0 then 0
  else (acc.2.1 * acc.2.1) / ((acc.1 : ℚ) * acc.2.2)

/-! ## Event queue (`events.hpp`)

`EventQueue` wraps `std::priority_queue<Event, std::vector<Event>,
EventCompare>` with `EventCompare(a, b) = a.time > b.time`. The heap
operations below are the algorithms `std::priority_queue` executes:
libstdc++'s `__push_heap` and `__pop_heap` / `__adjust_heap` from
`bits/stl_heap.h`, specialised to that comparator. The underlying
`std::vector<Event>` is the list `l`, index 0 being the root. -/

/-- `Event` from `events.hpp`. -/
structure Event where
  time : ℚ
  channel : ℤ
  request : Request
deriving DecidableEq, Repr, Inhabited

/-- Read of an event array cell (in range in all verified uses). -/
def getE (l : List Event) (i : ℕ) : Event := l.getD i default

/-- Parent index in the array-encoded binary tree. -/
def par (i : ℕ) : ℕ := (i - 1) / 2

/-- libstdc++ `__push_heap(first, holeIndex, topIndex = 0, value)` with
comparator `EventCompare`: moves parents down while
`comp(parent, value)` (that is `parent.time > value.time`), then stores
`value` at the final hole. -/
def siftUp : List Event → Event → ℕ → List Event
  | l, v, 0 => l.set 0 v
  | l, v, (h + 1) =>
    if (getE l (h / 2)).time > v.time then
      siftUp (l.set (h + 1) (getE l (h / 2))) v (h / 2)
    else l.set (h + 1) v
termination_by l v h => h
decreasing_by simp_wf; omega

/-- The down phase of libstdc++ `__adjust_heap(first, holeIndex, len, value)`:
while the hole has two children inside `[0, len)`, promote the
comparator-larger child (the smaller `time`; `comp(right, left)` false,
i.e. a tie, selects the right child) into the hole; afterwards, if `len` is
even and the hole is the unique node with only a left child, promote that
child. Returns the array and the final hole index. -/
def adjustDown (len : ℕ) : List Event → ℕ → List Event × ℕ
  | l, hole =>
    if hcond : hole < (len - 1) / 2 then
      let c2 := 2 * (hole + 1)
      let c := if (getE l c2).time > (getE l (c2 - 1)).time then c2 - 1 else c2
      adjustDown len (l.set hole (getE l c)) c
    else if len % 2 = 0 ∧ 2 ≤ len ∧ hole = (len - 2) / 2 then
      (l.set hole (getE l (2 * (hole + 1) - 1)), 2 * (hole + 1) - 1)
    else (l, hole)
termination_by l hole => len - hole
decreasing_by simp_wf; split <;> omega

/-- libstdc++ `__adjust_heap`: down phase to a leaf, then `__push_heap`
from the final hole. -/
def adjustHeap (len : ℕ) (l : List Event) (value : Event) : List Event :=
  let p := adjustDown len l 0
  siftUp p.1 value p.2

/-- `EventQueue` state: the heap array of the `std::priority_queue`. -/
structure EventQueue where
  heap : List Event
deriving DecidableEq, Repr, Inhabited

/-- The empty event queue. -/
def emptyEQ : EventQueue := { heap := [] }

/-- `EventQueue::empty`. -/
def eqEmpty (q : EventQueue) : Bool := q.heap.isEmpty

/-- `EventQueue::push`: `priority_queue::push` appends and runs
`__push_heap` from the new slot. -/
def evPush (q : EventQueue) (ev : Event) : EventQueue :=
  { heap := siftUp (q.heap ++ [ev]) ev q.heap.length }

/-- `EventQueue::pop` (preceded by the driver's `empty()` test):
`priority_queue::pop` runs `pop_heap` — the root is the result, the last
element is removed and re-inserted by `__adjust_heap` over the remaining
`n - 1` slots — then `pop_back`. Returns the popped event and the new
queue, or `none` on an empty queue. -/
def evPop (q : EventQueue) : Option (Event × EventQueue) :=
  match q.heap with
  | [] => none
  | e :: rest =>
    let n := q.heap.length
    if rest = [] then some (e, emptyEQ)
    else
      let value := getE q.heap (n - 1)
      let w := q.heap.take (n - 1)
      some (e, { heap := adjustHeap (n - 1) w value })

/-- `EventQueue::top().time`: the root's timestamp. -/
def eqTopTime (q : EventQueue) : ℚ := (getE q.heap 0).time

/-- The binary-heap ordering invariant of the array: every non-root entry's
time is at least its parent's time. -/
def IsHeap (l : List Event) : Prop :=
  ∀ i : ℕ, 0 < i → i < l.length → (getE l (par i)).time ≤ (getE l i).time

/-- The heap invariant with the edge into position `hole` exempted. -/
def HeapExcept (l : List Event) (hole : ℕ) : Prop :=
  ∀ i : ℕ, 0 < i → i < l.length → i ≠ hole →
    (getE l (par i)).time ≤ (getE l i).time

/-- A single operation on the event queue, for quantifying over arbitrary
interaction sequences with the driver. -/
inductive EQOp where
  | pushOp : Event → EQOp
  | popOp : EQOp
deriving Repr

/-- Run a sequence of queue operations from the empty queue (a `popOp` on an
empty queue leaves it empty, as the driver never pops without checking). -/
def runEQ : List EQOp → EventQueue
  | [] => emptyEQ
  | op :: ops =>
    let q := runEQ ops
    match op with
    | EQOp.pushOp e => evPush q e
    | EQOp.popOp =>
      match evPop q with
      | none => q
      | some p => p.2

/-! ## Deficit round robin (`scheduler_impl.hpp`, `DeficitRoundRobinScheduler`) -/

/-- C++ `static_cast<int64_t>(x)` on a `double`: truncation toward zero. -/
def ratTrunc (x : ℚ) : ℤ := if 0 ≤ x then ⌊x⌋ else ⌈x⌉

/-- The quantum credit added per visited tenant in
`DeficitRoundRobinScheduler::pick_user`:
`int64_t q = (int64_t)(quantum_ * weights_[uid]); if (q <= 0) q = (int64_t)quantum_;`. -/
def drrCredit (quantum w : ℚ) : ℤ :=
  let q := ratTrunc (quantum * w)
  if q ≤ 0 then ratTrunc quantum else q

/-- `DeficitRoundRobinScheduler` state. -/
structure DRRState where
  queues : List (List Request)
  deficit : List ℤ
  weights : List ℚ
  quantum : ℚ
  next : ℕ
deriving DecidableEq, Repr

/-- A freshly constructed `DeficitRoundRobinScheduler` (member initialisers). -/
def drrInit : DRRState :=
  { queues := [], deficit := [], weights := [], quantum := 4096, next := 0 }

/-- `DeficitRoundRobinScheduler::set_users`. -/
def drrSetUsers (s : DRRState) (n : ℕ) : DRRState :=
  { s with
      queues := List.replicate n []
      deficit := List.replicate n 0
      weights := List.replicate n 1
      next := 0 }

/-- `DeficitRoundRobinScheduler::set_quantum`: `q <= 0` is ignored. -/
def drrSetQuantum (s : DRRState) (q : ℚ) : DRRState :=
  if 0 < q then { s with quantum := q } else s

/-- `DeficitRoundRobinScheduler::set_weights`: no-op when there are no
tenants; otherwise re-assigns all weights to 1 and overwrites the common
prefix with `max(w[i], 0)`. -/
def drrSetWeights (s : DRRState) (w : List ℚ) : DRRState :=
  if s.queues.length = 0 then s
  else
    let ws := (List.range s.queues.length).map
      (fun i => if i < w.length then max (w.getD i 0) 0 else 1)
    { s with weights := ws }

/-- `DeficitRoundRobinScheduler::enqueue`: silently drops out-of-range
tenant ids. -/
def drrEnqueue (s : DRRState) (r : Request) : DRRState :=
  if r.user_id < 0 ∨ (s.queues.length : ℤ) ≤ r.user_id then s
  else
    let uid := r.user_id.toNat
    { s with queues := s.queues.set uid (s.queues.getD uid [] ++ [r]) }

/-- The body of the `pick_user` scan for one tenant `uid`: skip an empty
queue; otherwise add the quantum credit to `deficit[uid]` and, if the head
request now fits, select `uid` and advance `next` past it. -/
def drrVisit (s : DRRState) (uid : ℕ) : Option ℕ × DRRState :=
  match s.queues.getD uid [] with
  | [] => (none, s)
  | r :: _ =>
    let d := getZ s.deficit uid + drrCredit s.quantum (s.weights.getD uid 1)
    let s' := { s with deficit := s.deficit.set uid d }
    if (r.size_bytes : ℤ) ≤ d then
      (some uid, { s' with next := (uid + 1) % s'.queues.length })
    else (none, s')

/-- The `pick_user` scan: visits `remaining` positions starting at offset
`i` from `next`, threading deficit updates. -/
def drrScan : DRRState → ℕ → ℕ → Option ℕ × DRRState
  | s, _, 0 => (none, s)
  | s, i, (rem + 1) =>
    let uid := (s.next + i) % s.queues.length
    match drrVisit s uid with
    | (some u, s') => (some u, s')
    | (none, s') => drrScan s' (i + 1) rem

/-- `DeficitRoundRobinScheduler::pick_user`. -/
def drrPickUser (s : DRRState) (now : ℚ) : Option ℕ × DRRState :=
  if s.queues.length = 0 then (none, s)
  else drrScan s 0 s.queues.length

/-- `DeficitRoundRobinScheduler::pop`: removes the head request and
subtracts its size from the deficit, clamped at zero. -/
def drrPop (s : DRRState) (uid : ℕ) : Option Request × DRRState :=
  match s.queues.getD uid [] with
  | [] => (none, s)
  | r :: rest =>
    if uid < s.queues.length then
      (some r,
        { s with
            queues := s.queues.set uid rest
            deficit := s.deficit.set uid
              (max 0 (getZ s.deficit uid - (r.size_bytes : ℤ))) })
    else (none, s)

/-- `DeficitRoundRobinScheduler::empty`. -/
def drrEmpty (s : DRRState) : Bool := s.queues.all (·.isEmpty)

/-! ## Weighted fair queueing (`scheduler_impl.hpp`, `WeightedFairScheduler`) -/

/-- `WeightedFairScheduler::TaggedRequest`. -/
structure TaggedRequest where
  req : Request
  finish_tag : ℚ
deriving DecidableEq, Repr, Inhabited

/-- The `1e-9` weight floor of `WeightedFairScheduler::set_weights`
(modelled as the exact rational; the verified properties do not depend on
its binary representation). -/
def wfqEps : ℚ := 1 / 1000000000

/-- `WeightedFairScheduler` state. -/
structure WFQState where
  queues : List (List TaggedRequest)
  weights : List ℚ
  last_finish : List ℚ
  virtual_time : ℚ
  active_flows : ℤ
deriving DecidableEq, Repr

/-- A freshly constructed `WeightedFairScheduler`. -/
def wfqInit : WFQState :=
  { queues := [], weights := [], last_finish := [], virtual_time := 0,
    active_flows := 0 }

/-- `WeightedFairScheduler::set_users` (does not reset `virtual_time_`). -/
def wfqSetUsers (s : WFQState) (n : ℕ) : WFQState :=
  { s with
      queues := List.replicate n []
      weights := List.replicate n 1
      last_finish := List.replicate n 0
      active_flows := 0 }

/-- `WeightedFairScheduler::set_weights`: clamps to the `1e-9` floor,
missing entries default to 1. -/
def wfqSetWeights (s : WFQState) (w : List ℚ) : WFQState :=
  if s.queues.length = 0 then s
  else
    let ws := (List.range s.queues.length).map
      (fun i => if i < w.length then max (w.getD i 0) wfqEps else 1)
    { s with weights := ws }

/-- `WeightedFairScheduler::enqueue`: tags the request with
`F = max(last_finish[u], virtual_time) + size / weight[u]`, records `F` in
`last_finish[u]`, and bumps `active_flows` when the queue was empty. -/
def wfqEnqueue (s : WFQState) (r : Request) : WFQState :=
  if r.user_id < 0 ∨ (s.queues.length : ℤ) ≤ r.user_id then s
  else
    let uid := r.user_id.toNat
    let start_tag := max (s.last_finish.getD uid 0) s.virtual_time
    let finish_tag := start_tag + (r.size_bytes : ℚ) / (s.weights.getD uid 1)
    let wasEmpty := s.queues.getD uid [] = []
    { s with
        queues := s.queues.set uid (s.queues.getD uid [] ++ [⟨r, finish_tag⟩])
        last_finish := s.last_finish.set uid finish_tag
        active_flows := if wasEmpty then s.active_flows + 1
          else s.active_flows }

/-- The `pick_user` scan of `WeightedFairScheduler`: the first tenant whose
head finish tag is strictly below every later head (C++ starts from
`+infinity` and updates on strict `<`). -/
def wfqScan : List (List TaggedRequest) → ℕ → Option (ℕ × ℚ) → Option (ℕ × ℚ)
  | [], _, best => best
  | q :: qs, idx, best =>
    match q with
    | [] => wfqScan qs (idx + 1) best
    | t :: _ =>
      let best' :=
        match best with
        | none => some (idx, t.finish_tag)
        | some (bu, bf) =>
          if t.finish_tag < bf then some (idx, t.finish_tag) else some (bu, bf)
      wfqScan qs (idx + 1) best'

/-- `WeightedFairScheduler::pick_user`: advances `virtual_time` to `now`
and selects the head with the minimum finish tag. -/
def wfqPickUser (s : WFQState) (now : ℚ) : Option ℕ × WFQState :=
  if s.queues.length = 0 ∨ s.active_flows = 0 then (none, s)
  else
    let s' := { s with virtual_time := max s.virtual_time now }
    ((wfqScan s.queues 0 none).map Prod.fst, s')

/-- `WeightedFairScheduler::pop`: dequeues the head and decrements
`active_flows` when the tenant queue becomes empty. -/
def wfqPop (s : WFQState) (uid : ℕ) : Option Request × WFQState :=
  match s.queues.getD uid [] with
  | [] => (none, s)
  | t :: rest =>
    if uid < s.queues.length then
      (some t.req,
        { s with
            queues := s.queues.set uid rest
            active_flows := if rest = [] then s.active_flows - 1
              else s.active_flows })
    else (none, s)

/-- `WeightedFairScheduler::empty`. -/
def wfqEmpty (s : WFQState) : Bool := s.queues.all (·.isEmpty)

/-! ## Scheduler interface and the start-gap wrapper -/

/-- The `Scheduler` virtual interface consumed by the simulation loop
(`scheduler.hpp`): the four operations the driver calls per iteration. -/
structure SchedOps (σ : Type) where
  enqueue : σ → Request → σ
  pick_user : σ → ℚ → Option ℕ × σ
  pop : σ → ℕ → Option Request × σ
  empty : σ → Bool

/-- `SchedOps` for `DeficitRoundRobinScheduler`. -/
def drrOps : SchedOps DRRState :=
  { enqueue := drrEnqueue, pick_user := drrPickUser, pop := drrPop,
    empty := drrEmpty }

/-- `SchedOps` for `WeightedFairScheduler`. -/
def wfqOps : SchedOps WFQState :=
  { enqueue := wfqEnqueue, pick_user := wfqPickUser, pop := wfqPop,
    empty := wfqEmpty }

/-- `StartGapScheduler` state over a base scheduler state `σ`
(`std::unordered_map<int,int> remap_` is modelled as an association
list; the driver keeps it at most one entry deep). -/
structure SGFSState (σ : Type) where
  base : σ
  rotate_every : ℕ
  gap : ℕ
  rotate_count : ℕ
  start : ℕ
  users : ℕ
  remap : List (ℕ × ℕ)
deriving DecidableEq

/-- `unordered_map::operator[] =`: replace the binding if present, else add. -/
def alInsert (l : List (ℕ × ℕ)) (k v : ℕ) : List (ℕ × ℕ) :=
  if l.any (fun p => p.1 = k) then
    l.map (fun p => if p.1 = k then (k, v) else p)
  else l ++ [(k, v)]

/-- `unordered_map::find`. -/
def alLookup (l : List (ℕ × ℕ)) (k : ℕ) : Option ℕ :=
  (l.find? (fun p => p.1 = k)).map Prod.snd

/-- `unordered_map::erase`. -/
def alErase (l : List (ℕ × ℕ)) (k : ℕ) : List (ℕ × ℕ) :=
  l.filter (fun p => p.1 ≠ k)

/-- `StartGapScheduler` constructed by `main` for policy `sgfs`:
`set_start_gap(rotate_every, gap)` (clamped to at least 1) followed by
`set_users(n)` (which resets the counters, clears the remap and sizes the
base scheduler). -/
def mkSGFS (baseAfterSetUsers : σ) (rotate_every gap : ℤ) (n : ℕ) : SGFSState σ :=
  { base := baseAfterSetUsers
    rotate_every := (max 1 rotate_every).toNat
    gap := (max 1 gap).toNat
    rotate_count := 0
    start := 0
    users := n
    remap := [] }

/-- `StartGapScheduler::pick_user`: delegates to the base scheduler, then
advances the rotation (`++rotate_count_` happens only when
`rotate_every_ > 0`, by `&&` short-circuit) and publishes
`(uid + start) mod users`, recording the reverse mapping. -/
def sgfsPickUser (ops : SchedOps σ) (s : SGFSState σ) (now : ℚ) :
    Option ℕ × SGFSState σ :=
  if s.users = 0 then (none, s)
  else
    match ops.pick_user s.base now with
    | (none, b') => (none, { s with base := b' })
    | (some uid, b') =>
      let rc1 := s.rotate_count + 1
      let rotated := 0 < s.rotate_every ∧ s.rotate_every ≤ rc1
      let start' :=
        if rotated then (if 0 < s.users then (s.start + s.gap) % s.users else s.start)
        else s.start
      let rc' :=
        if rotated then 0
        else if 0 < s.rotate_every then rc1 else s.rotate_count
      let mapped := if 0 < s.users then (uid + start') % s.users else uid
      (some mapped,
        { s with
            base := b'
            rotate_count := rc'
            start := start'
            remap := alInsert s.remap mapped uid })

/-- `StartGapScheduler::pop`: translates the published id back through the
remap (erasing the entry) and delegates. -/
def sgfsPop (ops : SchedOps σ) (s : SGFSState σ) (uid : ℕ) :
    Option Request × SGFSState σ :=
  match alLookup s.remap uid with
  | some actual =>
    let p := ops.pop s.base actual
    (p.1, { s with base := p.2, remap := alErase s.remap uid })
  | none =>
    let p := ops.pop s.base uid
    (p.1, { s with base := p.2 })

/-- `SchedOps` for `StartGapScheduler` over a base scheduler. -/
def sgfsOps (ops : SchedOps σ) : SchedOps (SGFSState σ) :=
  { enqueue := fun s r => { s with base := ops.enqueue s.base r }
    pick_user := sgfsPickUser ops
    pop := sgfsPop ops
    empty := fun s => ops.empty s.base }

/-! ## Simulation driver (`main.cpp`, the main loop) -/

/-- The driver state of `main`: scheduler, device, event queue, metrics,
trace cursor `i` and the simulated clock `now`. -/
structure SimState (σ : Type) where
  sched : σ
  device : SSDState
  queue : EventQueue
  metrics : Metrics
  i : ℕ
  now : ℚ
deriving DecidableEq

/-- Driver state at the top of the main loop. -/
def initSim (sched0 : σ) (cfg : SimConfig) : SimState σ :=
  { sched := sched0
    device := mkSSD cfg
    queue := emptyEQ
    metrics := mkMetrics cfg.num_users
    i := 0
    now := 0 }

/-- The body of the arrival-admission loop, counting down the (at most
`trace.length - i`) remaining admissions so the recursion is structural. -/
def admitAux (ops : SchedOps σ) (trace : List Request) :
    ℕ → SimState σ → SimState σ
  | 0, s => s
  | (k + 1), s =>
    if s.i < trace.length ∧ (trace.getD s.i default).arrival_ts ≤ s.now then
      admitAux ops trace k
        { s with
            sched := ops.enqueue s.sched (trace.getD s.i default)
            i := s.i + 1 }
    else s

/-- Step 1 of a loop iteration: `while (i < trace.size() &&
trace[i].arrival_ts <= now) { scheduler->enqueue(trace[i]); ++i; }` (each
pass advances `i` while keeping `i < |trace|`, so `|trace| - i` bounds the
iteration count exactly). -/
def admitArrivals (ops : SchedOps σ) (trace : List Request)
    (s : SimState σ) : SimState σ :=
  admitAux ops trace (trace.length - s.i) s

/-- Step 2 of a loop iteration, the `while (true)` dispatch loop: find a
free channel, pick a tenant, pop its request, stamp `start_ts`, dispatch on
the channel and push the completion event. The C++ loop is bounded by the
number of queued requests; `fuel` makes it structurally terminating. -/
def dispatchLoop (ops : SchedOps σ) : ℕ → SimState σ → SimState σ
  | 0, s => s
  | (f + 1), s =>
    match first_free_channel s.device s.now with
    | none => s
    | some chan =>
      match ops.pick_user s.sched s.now with
      | (none, sc) => { s with sched := sc }
      | (some uid, sc) =>
        match ops.pop sc uid with
        | (none, sc2) => { s with sched := sc2 }
        | (some req, sc2) =>
          let req1 := { req with start_ts := s.now }
          match ssd_dispatch s.device (chan : ℤ) req1 s.now with
          | Except.error _ => { s with sched := sc2 }
          | Except.ok (fin, dev') =>
            let req2 := { req1 with finish_ts := fin }
            dispatchLoop ops f
              { s with
                  sched := sc2
                  device := dev'
                  queue := evPush s.queue
                    { time := fin, channel := (chan : ℤ), request := req2 } }

/-- The main simulation loop of `main.cpp` (fuelled): each iteration admits
arrivals, pumps dispatches, then either consumes the earliest completion
event, fast-forwards to the next arrival, or breaks out of the loop. -/
def simRun (ops : SchedOps σ) (trace : List Request) : ℕ → SimState σ → SimState σ
  | 0, s => s
  | (f + 1), s =>
    if s.i < trace.length ∨ ops.empty s.sched = false ∨ eqEmpty s.queue = false then
      let s1 := admitArrivals ops trace s
      let s2 := dispatchLoop ops (trace.length + 1) s1
      match evPop s2.queue with
      | some (ev, q') =>
        simRun ops trace f
          { s2 with
              now := ev.time
              queue := q'
              metrics := on_finish s2.metrics ev.request }
      | none =>
        if s2.i < trace.length then
          simRun ops trace f
            { s2 with now := (trace.getD s2.i default).arrival_ts }
        else s2
    else s

/-! ## Concrete instances used by counterexamples and witnesses -/

/-- An in-range read request of the given size arriving at time 0. -/
def readReq (sz : ℕ) : Request :=
  { user_id := 0, op := OpType.READ, arrival_ts := 0, size_bytes := sz }

/-- DRR state with one tenant of weight 0, quantum 4096 and a queued
8192-byte request (reachable via `set_users 1`, `set_weights [0]`,
`enqueue`). -/
def drrCexA : DRRState :=
  { queues := [[readReq 8192]], deficit := [0], weights := [0],
    quantum := 4096, next := 0 }

/-- DRR state with one tenant of weight 1, quantum 1/2 and a queued
8192-byte request (reachable via `set_users 1`, `set_quantum 0.5`,
`enqueue`). -/
def drrCexB : DRRState :=
  { queues := [[readReq 8192]], deficit := [0], weights := [1],
    quantum := 1 / 2, next := 0 }

/-- An event with the given time and a distinguishing channel tag. -/
def mkEv (t : ℚ) (c : ℤ) : Event := { time := t, channel := c, request := default }

/-- An equal-time completion event with a distinguishing channel tag. -/
def tagEv (c : ℤ) : Event := { time := 1, channel := c, request := default }

/-- Four equal-time events pushed in channel order 0, 1, 2, 3. -/
def eqCex : EventQueue :=
  evPush (evPush (evPush (evPush emptyEQ (tagEv 0)) (tagEv 1)) (tagEv 2)) (tagEv 3)

/-- The trace of the driver/DRR failing input: a single 8192-byte read at
time 0 for tenant 0. -/
def traceC1 : List Request := [readReq 8192]

/-- Configuration `main` uses by default (8 channels, 2000/1200 MB/s),
with one tenant as inferred from `traceC1`. -/
def cfgC1 : SimConfig :=
  { num_users := 1, num_channels := 8, read_bw_MBps := 2000,
    write_bw_MBps := 1200 }

/-- The DRR scheduler exactly as `main` builds it for `--scheduler drr`
with the default quantum 4096 on `traceC1`. -/
def drrC1 : DRRState := drrSetQuantum (drrSetUsers drrInit 1) 4096

/-- The driver run on the failing input (5 iterations of fuel are more than
the loop executes before it breaks). -/
def finalC1 : SimState DRRState := simRun drrOps traceC1 5 (initSim drrC1 cfgC1)

/-- Metrics state with three configured tenants of which exactly two have
completed equal byte totals (witness input for the fairness index). -/
def mExample : Metrics :=
  { stats := [{ completed := 0, total_latency := 0, bytes := 0 },
              { completed := 1, total_latency := 2, bytes := 4096 },
              { completed := 2, total_latency := 1, bytes := 4096 }] }


/-- `main`'s optional `--weights` handling applied to a bare WFQ scheduler. -/
def wfqApplyWeights (w : WFQState) (ow : Option (List ℚ)) : WFQState :=
  match ow with
  | none => w
  | some ws => wfqSetWeights w ws

/-- `main`'s optional `--weights` handling applied to the SGFS wrapper
(`StartGapScheduler::set_weights` delegates to the base scheduler). -/
def sgfsApplyWeights (g : SGFSState WFQState) (ow : Option (List ℚ)) :
    SGFSState WFQState :=
  match ow with
  | none => g
  | some ws => { g with base := wfqSetWeights g.base ws }

/-- The simulation relation between an SGFS-over-WFQ scheduler and the bare
WFQ scheduler: same base state, empty remap, and the wrapper's tenant count
agrees with the base queue count. -/
def SGRel (g : SGFSState WFQState) (w : WFQState) : Prop :=
  g.base = w ∧ g.remap = [] ∧ g.users = w.queues.length

/-- The simulation relation between driver states of the two runs: related
schedulers and identical device, event queue, metrics, cursor and clock. -/
def SimRel (sg : SimState (SGFSState WFQState)) (sw : SimState WFQState) : Prop :=
  SGRel sg.sched sw.sched ∧ sg.device = sw.device ∧ sg.queue = sw.queue ∧
    sg.metrics = sw.metrics ∧ sg.i = sw.i ∧ sg.now = sw.now

/-! # Theorems

Generic list lemmas first, then the per-claim theorems.

Batteries marks the `Rat` arithmetic operations `@[irreducible]`, which
blocks `decide`/`rfl` evaluation of the embedded code on concrete inputs;
restore the kernel-visible reducibility first. -/

set_option allowUnsafeReducibility true in
attribute [semireducible] Rat.mul

set_option allowUnsafeReducibility true in
attribute [semireducible] Rat.add

set_option allowUnsafeReducibility true in
attribute [semireducible] Rat.sub

set_option allowUnsafeReducibility true in
attribute [semireducible] Rat.inv

theorem getD_set_self {α : Type} (l : List α) (i : ℕ) (v d : α)
    (h : i < l.length) : (l.set i v).getD i d = v := by
  induction l generalizing i with
  | nil => simp at h
  | cons a t ih =>
    cases i with
    | zero => rfl
    | succ j => simpa using ih j (by simpa using h)

theorem getD_set_ne {α : Type} (l : List α) (i j : ℕ) (v d : α)
    (h : i ≠ j) : (l.set i v).getD j d = l.getD j d := by
  induction l generalizing i j with
  | nil => rfl
  | cons a t ih =>
    cases i with
    | zero => cases j with
      | zero => exact absurd rfl h
      | succ j' => rfl
    | succ i' => cases j with
      | zero => rfl
      | succ j' => simpa using ih i' j' (by omega)

theorem getD_oob {α : Type} (l : List α) (i : ℕ) (d : α)
    (h : l.length ≤ i) : l.getD i d = d := by
  induction l generalizing i with
  | nil => rfl
  | cons a t ih =>
    cases i with
    | zero => simp at h
    | succ j => simpa using ih j (by simpa using h)

theorem getD_append_left {α : Type} (l l' : List α) (i : ℕ) (d : α)
    (h : i < l.length) : (l ++ l').getD i d = l.getD i d := by
  induction l generalizing i with
  | nil => simp at h
  | cons a t ih =>
    cases i with
    | zero => rfl
    | succ j => simpa using ih j (by simpa using h)

theorem getD_append_right {α : Type} (l l' : List α) (i : ℕ) (d : α)
    (h : l.length ≤ i) : (l ++ l').getD i d = l'.getD (i - l.length) d := by
  induction l generalizing i with
  | nil => simp
  | cons a t ih =>
    cases i with
    | zero => simp at h
    | succ j =>
      have := ih j (by simpa using h)
      simpa [Nat.succ_sub_succ] using this

theorem getD_replicate {α : Type} (n i : ℕ) (c d : α) (h : i < n) :
    (List.replicate n c).getD i d = c := by
  induction n generalizing i with
  | zero => omega
  | succ m ih =>
    cases i with
    | zero => rfl
    | succ j => simpa [List.replicate_succ] using ih j (by omega)

/-- C5: `SSD::dispatch(channel_idx, request, now)` fails with an
out-of-range error exactly when `channel_idx ∉ [0, num_channels)`; in range
it returns the new `free_at = max(now, free_at) + service` after storing it
for that channel, and every other channel's `free_at` is unchanged. The
hypothesis records the constructor invariant
`channels_.size() == max(num_channels, 0)`. -/
theorem ssd_dispatch_spec (s : SSDState) (idx : ℤ) (r : Request) (now : ℚ)
    (hlen : s.channels.length = (max s.cfg.num_channels 0).toNat) :
    (ssd_dispatch s idx r now = Except.error () ↔
      ¬ (0 ≤ idx ∧ idx < s.cfg.num_channels)) ∧
    (0 ≤ idx → idx < s.cfg.num_channels →
      ∃ st : SSDState, ssd_dispatch s idx r now = Except.ok
          (max now (getQ s.channels idx.toNat) + service_time s.cfg r, st) ∧
        st.cfg = s.cfg ∧
        st.channels = s.channels.set idx.toNat
          (max now (getQ s.channels idx.toNat) + service_time s.cfg r) ∧
        ∀ j : ℕ, j ≠ idx.toNat → getQ st.channels j = getQ s.channels j) := by
  have hcast : ((max s.cfg.num_channels 0).toNat : ℤ) = max s.cfg.num_channels 0 :=
    Int.toNat_of_nonneg (le_max_right _ _)
  constructor
  · unfold ssd_dispatch
    split
    · rename_i hcond
      simp only [true_iff]
      rw [hlen] at hcond
      omega
    · rename_i hcond
      simp only [reduceCtorEq, false_iff, not_not]
      rw [hlen] at hcond
      constructor <;> omega
  · intro h0 h1
    have hrange : ¬ (idx < 0 ∨ (s.channels.length : ℤ) ≤ idx) := by
      rw [hlen]; omega
    set free := max now (getQ s.channels idx.toNat) + service_time s.cfg r with hfree
    refine ⟨{ s with channels := s.channels.set idx.toNat free }, ?_, rfl, rfl, ?_⟩
    · unfold ssd_dispatch
      rw [if_neg hrange]
    · intro j hj
      show getQ (s.channels.set idx.toNat free) j = getQ s.channels j
      exact getD_set_ne _ _ _ _ _ (fun he => hj he.symm)

/-- Witness for `ssd_dispatch_spec`: on the default 8-channel device,
channel index 9 is rejected and channel 3 is dispatched successfully. -/
theorem ssd_dispatch_spec_witness :
    ssd_dispatch (mkSSD cfgC1) 9 (readReq 8) 0 = Except.error () ∧
    ∃ st : SSDState, ssd_dispatch (mkSSD cfgC1) 3 (readReq 8) 0 = Except.ok
        (max 0 (getQ (mkSSD cfgC1).channels 3) +
          service_time (mkSSD cfgC1).cfg (readReq 8), st) ∧
      st.cfg = (mkSSD cfgC1).cfg ∧
      st.channels = (mkSSD cfgC1).channels.set 3
        (max 0 (getQ (mkSSD cfgC1).channels 3) +
          service_time (mkSSD cfgC1).cfg (readReq 8)) ∧
      ∀ j : ℕ, j ≠ 3 → getQ st.channels j = getQ (mkSSD cfgC1).channels j := by
  constructor
  · exact ((ssd_dispatch_spec (mkSSD cfgC1) 9 (readReq 8) 0 rfl).1).mpr (by decide)
  · exact (ssd_dispatch_spec (mkSSD cfgC1) 3 (readReq 8) 0 rfl).2
      (by decide) (by decide)

/-- C6: the per-request service time equals
`bytes / ((aggregate_bw / num_channels) * 2^20)` seconds (read bandwidth
for reads, write bandwidth for writes), and it is 0 whenever
`num_channels <= 0` or the relevant bandwidth is non-positive. -/
theorem service_time_spec (cfg : SimConfig) (b : ℕ) :
    (0 < cfg.num_channels → 0 < cfg.read_bw_MBps →
      read_service_time_s cfg b =
        (b : ℚ) / ((cfg.read_bw_MBps / (cfg.num_channels : ℚ)) * 2 ^ 20)) ∧
    (cfg.num_channels ≤ 0 ∨ cfg.read_bw_MBps ≤ 0 →
      read_service_time_s cfg b = 0) ∧
    (0 < cfg.num_channels → 0 < cfg.write_bw_MBps →
      write_service_time_s cfg b =
        (b : ℚ) / ((cfg.write_bw_MBps / (cfg.num_channels : ℚ)) * 2 ^ 20)) ∧
    (cfg.num_channels ≤ 0 ∨ cfg.write_bw_MBps ≤ 0 →
      write_service_time_s cfg b = 0) := by
  have hMB : kBytesPerMB = 2 ^ 20 := by norm_num [kBytesPerMB]
  have hpos : ∀ bw : ℚ, 0 < cfg.num_channels → 0 < bw →
      bytes_per_second bw cfg.num_channels = bw / (cfg.num_channels : ℚ) * 2 ^ 20 ∧
      0 < bytes_per_second bw cfg.num_channels := by
    intro bw hc hbw
    have hc' : (0 : ℚ) < (cfg.num_channels : ℚ) := by exact_mod_cast hc
    have : bytes_per_second bw cfg.num_channels = bw / (cfg.num_channels : ℚ) * 2 ^ 20 := by
      unfold bytes_per_second
      rw [if_neg (by omega), hMB]
    refine ⟨this, ?_⟩
    rw [this]
    positivity
  have hnp : ∀ bw : ℚ, cfg.num_channels ≤ 0 ∨ bw ≤ 0 →
      bytes_per_second bw cfg.num_channels ≤ 0 := by
    intro bw h
    unfold bytes_per_second
    split
    · exact le_refl 0
    · rename_i hc
      rcases h with h | h
      · omega
      · have hc' : (0 : ℚ) < (cfg.num_channels : ℚ) := by
          exact_mod_cast (by omega : 0 < cfg.num_channels)
        have hinv : (0 : ℚ) ≤ ((cfg.num_channels : ℚ))⁻¹ := by positivity
        have h3 : bw / (cfg.num_channels : ℚ) ≤ 0 := by
          rw [div_eq_mul_inv]
          nlinarith
        have h4 : (0 : ℚ) < kBytesPerMB := by norm_num [kBytesPerMB]
        nlinarith
  refine ⟨?_, ?_, ?_, ?_⟩
  · intro hc hbw
    obtain ⟨heq, hgt⟩ := hpos cfg.read_bw_MBps hc hbw
    unfold read_service_time_s
    rw [if_neg (not_le.mpr hgt), heq]
  · intro h
    unfold read_service_time_s
    rw [if_pos (hnp cfg.read_bw_MBps h)]
  · intro hc hbw
    obtain ⟨heq, hgt⟩ := hpos cfg.write_bw_MBps hc hbw
    unfold write_service_time_s
    rw [if_neg (not_le.mpr hgt), heq]
  · intro h
    unfold write_service_time_s
    rw [if_pos (hnp cfg.write_bw_MBps h)]

/-- Witness for `service_time_spec`: with 8 channels at 2000 MB/s aggregate
read bandwidth, a 1 MiB read takes `1/250` s, and a zero-channel
configuration yields service time 0. -/
theorem service_time_spec_witness :
    read_service_time_s cfgC1 1048576 =
      (1048576 : ℚ) / ((2000 / (8 : ℚ)) * 2 ^ 20) ∧
    read_service_time_s { cfgC1 with num_channels := 0 } 1048576 = 0 := by
  constructor
  · exact (service_time_spec cfgC1 1048576).1 (by decide) (by norm_num [cfgC1])
  · exact (service_time_spec { cfgC1 with num_channels := 0 } 1048576).2.1
      (Or.inl (by decide))

/-- C9: `DeficitRoundRobinScheduler::set_weights` never touches the deficit
counters — nor the queues, the rotation cursor or the quantum; only the
weights vector changes. -/
theorem drr_set_weights_frame (s : DRRState) (w : List ℚ) :
    (drrSetWeights s w).deficit = s.deficit ∧
    (drrSetWeights s w).queues = s.queues ∧
    (drrSetWeights s w).next = s.next ∧
    (drrSetWeights s w).quantum = s.quantum := by
  unfold drrSetWeights
  split <;> exact ⟨rfl, rfl, rfl, rfl⟩

/-- C10: `Metrics::on_finish` silently ignores completions with a negative
tenant id, and for a tenant id at or beyond the current stats size it grows
the vector to `user_id + 1` entries and records the completion there, so
`completed`, `total_bytes` and `avg_latency` subsequently report it. -/
theorem on_finish_spec (m : Metrics) (r : Request) :
    (r.user_id < 0 → on_finish m r = m) ∧
    (0 ≤ r.user_id → m.stats.length ≤ r.user_id.toNat →
      (on_finish m r).stats.length = r.user_id.toNat + 1 ∧
      completed_count (on_finish m r) r.user_id = 1 ∧
      total_bytes (on_finish m r) r.user_id = r.size_bytes ∧
      avg_latency (on_finish m r) r.user_id =
        (if r.finish_ts - r.arrival_ts < 0 then 0
          else r.finish_ts - r.arrival_ts)) := by
  constructor
  · intro hneg
    unfold on_finish
    rw [if_pos hneg]
  · intro h0 hlen
    have hnotneg : ¬ r.user_id < 0 := not_lt.mpr h0
    have hgrown : (m.stats ++ List.replicate (r.user_id.toNat + 1 - m.stats.length)
        ({} : UserStats)).length = r.user_id.toNat + 1 := by
      simp only [List.length_append, List.length_replicate]
      omega
    have hcell : (m.stats ++ List.replicate (r.user_id.toNat + 1 - m.stats.length)
        ({} : UserStats)).getD r.user_id.toNat ({} : UserStats) = ({} : UserStats) := by
      rw [getD_append_right _ _ _ _ hlen]
      exact getD_replicate _ _ _ _ (by omega)
    have hres : (on_finish m r).stats =
        (m.stats ++ List.replicate (r.user_id.toNat + 1 - m.stats.length)
          ({} : UserStats)).set r.user_id.toNat
          { completed := 1
            total_latency := (if r.finish_ts - r.arrival_ts < 0 then 0
              else r.finish_ts - r.arrival_ts)
            bytes := r.size_bytes } := by
      unfold on_finish
      rw [if_neg hnotneg]
      simp only [if_pos hlen, hcell]
      norm_num
    have hlen' : (on_finish m r).stats.length = r.user_id.toNat + 1 := by
      rw [hres, List.length_set, hgrown]
    have hread : statsAt (on_finish m r) r.user_id.toNat =
        { completed := 1
          total_latency := (if r.finish_ts - r.arrival_ts < 0 then 0
            else r.finish_ts - r.arrival_ts)
          bytes := r.size_bytes } := by
      unfold statsAt
      rw [hres]
      exact getD_set_self _ _ _ _ (by rw [hgrown]; omega)
    have hguard : ¬ (r.user_id < 0 ∨
        ((on_finish m r).stats.length : ℤ) ≤ r.user_id) := by
      rw [hlen']
      push_neg
      exact ⟨h0, by omega⟩
    refine ⟨hlen', ?_, ?_, ?_⟩
    · unfold completed_count
      rw [if_neg hguard, hread]
    · unfold total_bytes
      rw [if_neg hguard, hread]
    · unfold avg_latency
      rw [if_neg (by
        push_neg
        refine ⟨h0, by rw [hlen']; omega, ?_⟩
        rw [hread]
        norm_num)]
      rw [hread]
      norm_num

/-- Witness for `on_finish_spec`: a completion for tenant 5 on a 2-tenant
metrics state is recorded at index 5 after growing to 6 entries, and a
negative tenant id is dropped. -/
theorem on_finish_spec_witness :
    ((on_finish (mkMetrics 2)
        { readReq 4096 with user_id := 5, finish_ts := 7 }).stats.length = 6 ∧
      completed_count (on_finish (mkMetrics 2)
        { readReq 4096 with user_id := 5, finish_ts := 7 }) 5 = 1 ∧
      total_bytes (on_finish (mkMetrics 2)
        { readReq 4096 with user_id := 5, finish_ts := 7 }) 5 = 4096) ∧
    on_finish (mkMetrics 2) { readReq 4096 with user_id := -3 } = mkMetrics 2 := by
  have h := on_finish_spec (mkMetrics 2)
    { readReq 4096 with user_id := 5, finish_ts := 7 }
  have h2 := h.2 (by decide) (by decide)
  have hneg := (on_finish_spec (mkMetrics 2)
    { readReq 4096 with user_id := -3 }).1 (by decide)
  exact ⟨⟨h2.1, h2.2.1, h2.2.2.1⟩, hneg⟩

/-- C7: `WeightedFairScheduler::enqueue` of an in-range request appends it
tagged with `F = max(last_finish[u], virtual_time) + size / weight[u]`,
stores `F` into `last_finish[u]`, increments `active_flows` exactly when
the tenant queue was empty, and leaves `virtual_time` (and the weights)
unchanged. The hypothesis `hl` is the `set_users` sizing invariant. -/
theorem wfq_enqueue_spec (s : WFQState) (r : Request)
    (h0 : 0 ≤ r.user_id) (h1 : r.user_id.toNat < s.queues.length)
    (hl : s.last_finish.length = s.queues.length) :
    (wfqEnqueue s r).queues.getD r.user_id.toNat [] =
      s.queues.getD r.user_id.toNat [] ++
        [⟨r, max (s.last_finish.getD r.user_id.toNat 0) s.virtual_time +
          (r.size_bytes : ℚ) / (s.weights.getD r.user_id.toNat 1)⟩] ∧
    (wfqEnqueue s r).last_finish.getD r.user_id.toNat 0 =
      max (s.last_finish.getD r.user_id.toNat 0) s.virtual_time +
        (r.size_bytes : ℚ) / (s.weights.getD r.user_id.toNat 1) ∧
    (wfqEnqueue s r).virtual_time = s.virtual_time ∧
    (wfqEnqueue s r).weights = s.weights ∧
    (wfqEnqueue s r).active_flows = s.active_flows +
      (if s.queues.getD r.user_id.toNat [] = [] then 1 else 0) := by
  have hcast : (r.user_id.toNat : ℤ) = r.user_id := Int.toNat_of_nonneg h0
  have hguard : ¬ (r.user_id < 0 ∨ (s.queues.length : ℤ) ≤ r.user_id) := by
    omega
  unfold wfqEnqueue
  rw [if_neg hguard]
  refine ⟨?_, ?_, rfl, rfl, ?_⟩
  · exact getD_set_self _ _ _ _ h1
  · exact getD_set_self _ _ _ _ (by rw [hl]; exact h1)
  · dsimp only
    split <;> rename_i hcond
    · rfl
    · exact (add_zero _).symm


/-- Witness for `wfq_enqueue_spec`: enqueueing a 4096-byte request for
tenant 0 on a fresh 2-tenant WFQ sets its finish tag and `last_finish` to
4096 and raises `active_flows` to 1. -/
theorem wfq_enqueue_spec_witness :
    (wfqEnqueue (wfqSetUsers wfqInit 2) (readReq 4096)).last_finish.getD 0 0 = 4096 ∧
    (wfqEnqueue (wfqSetUsers wfqInit 2) (readReq 4096)).active_flows = 1 := by
  have h := wfq_enqueue_spec (wfqSetUsers wfqInit 2) (readReq 4096)
    (by decide) (by decide) (by decide)
  constructor
  · exact h.2.1.trans (by decide)
  · exact h.2.2.2.2.trans (by decide)

/-- C2 counterexample: in `DeficitRoundRobinScheduler::pick_user` with
quantum 4096 and weight 0, the visited tenant's deficit grows by 4096 (the
`(int64_t)quantum_` fallback), not by `max(1, floor(quantum*weight)) = 1`;
and with quantum 1/2 and weight 1 the added credit is 0, not at least 1. -/
theorem drr_credit_cex :
    (drrPickUser drrCexA 0).2.deficit = [4096] ∧
    max 1 ⌊(4096 : ℚ) * 0⌋ = 1 ∧
    ((4096 : ℤ) = 1 → False) ∧
    (drrPickUser drrCexB 0).2.deficit = [0] ∧
    ¬ (1 ≤ getZ (drrPickUser drrCexB 0).2.deficit 0 - getZ drrCexB.deficit 0) := by
  refine ⟨by decide, by norm_num, by decide, by decide, by decide⟩

/-- C2 amended: the credit added per visited non-empty tenant in the DRR
`pick_user` scan is `floor(quantum * weight[u])` when that is at least 1,
and `floor(quantum)` otherwise (not `max(1, floor(quantum*weight))`); it is
at least 1 whenever `quantum ≥ 1` (not for every positive quantum). -/
theorem drr_credit_amended (q w : ℚ) (hq : 0 < q) (hw : 0 ≤ w) :
    drrCredit q w = (if 1 ≤ ⌊q * w⌋ then ⌊q * w⌋ else ⌊q⌋) ∧
    (1 ≤ q → 1 ≤ drrCredit q w) ∧
    (∀ (s : DRRState) (uid : ℕ) (r : Request) (rest : List Request),
      s.queues.getD uid [] = r :: rest → uid < s.deficit.length →
      s.quantum = q → s.weights.getD uid 1 = w →
      getZ (drrVisit s uid).2.deficit uid = getZ s.deficit uid + drrCredit q w) := by
  have htq : ratTrunc q = ⌊q⌋ := if_pos hq.le
  have htqw : ratTrunc (q * w) = ⌊q * w⌋ := if_pos (mul_nonneg hq.le hw)
  have hform : drrCredit q w = if 1 ≤ ⌊q * w⌋ then ⌊q * w⌋ else ⌊q⌋ := by
    unfold drrCredit
    rw [htqw, htq]
    by_cases hc : ⌊q * w⌋ ≤ 0
    · rw [if_pos hc, if_neg (by omega)]
    · rw [if_neg hc, if_pos (by omega)]
  refine ⟨hform, ?_, ?_⟩
  · intro h1q
    rw [hform]
    by_cases hc : 1 ≤ ⌊q * w⌋
    · rw [if_pos hc]; exact hc
    · rw [if_neg hc]
      exact Int.le_floor.mpr (by exact_mod_cast h1q)
  · intro s uid r rest hqueue hdlen hquantum hweight
    have hvisit : (drrVisit s uid).2.deficit =
        s.deficit.set uid
          (getZ s.deficit uid + drrCredit s.quantum (s.weights.getD uid 1)) := by
      unfold drrVisit
      rw [hqueue]
      dsimp only
      split <;> rfl
    rw [hvisit, hquantum, hweight]
    exact getD_set_self _ _ _ _ hdlen

/-- Witness for `drr_credit_amended`: quantum 4096 with weight 0 credits
`floor(4096) = 4096`, quantum 4096 with weight 2 credits at least 1, and
visiting tenant 0 of `drrCexA` adds exactly `drrCredit 4096 0`. -/
theorem drr_credit_amended_witness :
    drrCredit 4096 0 =
      (if 1 ≤ ⌊(4096 : ℚ) * 0⌋ then ⌊(4096 : ℚ) * 0⌋ else ⌊(4096 : ℚ)⌋) ∧
    1 ≤ drrCredit 4096 2 ∧
    getZ (drrVisit drrCexA 0).2.deficit 0 =
      getZ drrCexA.deficit 0 + drrCredit 4096 0 := by
  have h := drr_credit_amended 4096 0 (by norm_num) (by norm_num)
  have h2 := drr_credit_amended 4096 2 (by norm_num) (by norm_num)
  exact ⟨h.1, h2.2.1 (by norm_num),
    h.2.2 drrCexA 0 (readReq 8192) [] rfl (by decide) rfl rfl⟩

/-- Unfolding lemma for the `fairness_index` accumulator fold. -/
theorem fairness_foldl (l : List UserStats) (k : ℕ) (a b : ℚ) :
    l.foldl fairnessStep (k, a, b) =
      (k + (l.filter (fun u => u.bytes != 0)).length,
        a + ((l.filter (fun u => u.bytes != 0)).map (fun u => (u.bytes : ℚ))).sum,
        b + ((l.filter (fun u => u.bytes != 0)).map
          (fun u => (u.bytes : ℚ) * (u.bytes : ℚ))).sum) := by
  induction l generalizing k a b with
  | nil => simp
  | cons u t ih =>
    by_cases hb : u.bytes = 0
    · simp [fairnessStep, hb, ih]
    · simp [fairnessStep, hb, ih, add_assoc]
      omega

/-- A sum of squared nonzero byte counts over a non-empty list is positive. -/
theorem sumSq_pos (l : List UserStats) (hall : ∀ u ∈ l, u.bytes ≠ 0)
    (hne : l ≠ []) :
    0 < (l.map (fun u => (u.bytes : ℚ) * (u.bytes : ℚ))).sum := by
  induction l with
  | nil => exact absurd rfl hne
  | cons u t ih =>
    have hu : u.bytes ≠ 0 := hall u (List.mem_cons_self u t)
    have hupos : (0 : ℚ) < (u.bytes : ℚ) * (u.bytes : ℚ) := by
      have : (0 : ℚ) < (u.bytes : ℚ) := by exact_mod_cast Nat.pos_of_ne_zero hu
      positivity
    rcases t with _ | ⟨v, t'⟩
    · simpa using hupos
    · have ht := ih (fun x hx => hall x (List.mem_cons_of_mem u hx)) (by simp)
      simp only [List.map_cons, List.sum_cons] at ht ⊢
      linarith

/-- C8: `Metrics::fairness_index` equals Jain's index
`(Σxᵢ)² / (k · Σxᵢ²)` where the `xᵢ` range over exactly the tenants with
nonzero accumulated bytes and `k` is their count; it is 0 when there are no
participants; and with exactly two participants holding equal positive byte
totals it equals 1. -/
theorem fairness_index_spec (m : Metrics) :
    (m.stats.filter (fun u => u.bytes != 0) = [] → fairness_index m = 0) ∧
    (m.stats.filter (fun u => u.bytes != 0) ≠ [] →
      fairness_index m =
        (((m.stats.filter (fun u => u.bytes != 0)).map
            (fun u => (u.bytes : ℚ))).sum) ^ 2 /
          (((m.stats.filter (fun u => u.bytes != 0)).length : ℚ) *
            ((m.stats.filter (fun u => u.bytes != 0)).map
              (fun u => (u.bytes : ℚ) ^ 2)).sum)) ∧
    (∀ b : ℕ, 0 < b →
      (m.stats.filter (fun u => u.bytes != 0)).map (fun u => u.bytes) = [b, b] →
      fairness_index m = 1) := by
  have hall : ∀ u ∈ m.stats.filter (fun u => u.bytes != 0), u.bytes ≠ 0 := by
    intro u hu
    have := List.of_mem_filter hu
    simpa using this
  have hfold := fairness_foldl m.stats 0 0 0
  have hsq : (m.stats.filter (fun u => u.bytes != 0)).map
      (fun u => (u.bytes : ℚ) ^ 2) =
      (m.stats.filter (fun u => u.bytes != 0)).map
        (fun u => (u.bytes : ℚ) * (u.bytes : ℚ)) := by
    apply List.map_congr_left
    intro u hu
    rw [pow_two]
  refine ⟨?_, ?_, ?_⟩
  · intro hempty
    unfold fairness_index
    rw [hfold, hempty]
    simp
  · intro hne
    unfold fairness_index
    rw [hfold]
    have hklen : (m.stats.filter (fun u => u.bytes != 0)).length ≠ 0 := by
      simpa [List.length_eq_zero] using hne
    have hsqpos := sumSq_pos _ hall hne
    rw [hsq]
    dsimp only
    rw [if_neg (by push_neg; constructor <;> [omega; linarith])]
    rw [pow_two]
    norm_num
  · intro b hb hmap
    rcases hxs : m.stats.filter (fun u => u.bytes != 0) with _ | ⟨u1, t1⟩
    · rw [hxs] at hmap; simp at hmap
    · rcases t1 with _ | ⟨u2, t2⟩
      · rw [hxs] at hmap; simp at hmap
      · rcases t2 with _ | ⟨u3, t3⟩
        · rw [hxs] at hmap
          simp only [List.map_cons, List.map_nil, List.cons.injEq, and_true] at hmap
          obtain ⟨h1, h2⟩ := hmap
          unfold fairness_index
          rw [hfold, hxs]
          simp only [List.length_cons, List.length_nil, List.map_cons,
            List.map_nil, List.sum_cons, List.sum_nil, h1, h2]
          have hbq : ((b : ℚ)) ≠ 0 := Nat.cast_ne_zero.mpr hb.ne'
          rw [if_neg (by push_neg; constructor <;> [omega; positivity])]
          field_simp
          ring
        · rw [hxs] at hmap; simp at hmap

/-- Witness for `fairness_index_spec`: on a 3-tenant metrics state where
exactly tenants 1 and 2 completed 4096 bytes each, the index is 1. -/
theorem fairness_index_spec_witness :
    (0 < 4096 ∧
      (mExample.stats.filter (fun u => u.bytes != 0)).map (fun u => u.bytes) =
        [4096, 4096]) ∧
    fairness_index mExample = 1 := by
  refine ⟨⟨by decide, by decide⟩, ?_⟩
  exact (fairness_index_spec mExample).2.2 4096 (by decide) (by decide)



/-! ## Heap lemmas for the event queue (claim C3)

`HeapExcept l hole` tracks the binary-heap order during a sift: every
parent-child edge holds except possibly the one into `hole`. -/

/-- `List.getD` of a `take`-prefix agrees with the original list. -/
theorem getD_take {α : Type} (l : List α) (m j : ℕ) (d : α) (h : j < m) :
    (l.take m).getD j d = l.getD j d := by
  induction l generalizing m j with
  | nil => simp
  | cons a t ih =>
    cases m with
    | zero => omega
    | succ m2 =>
      cases j with
      | zero => rfl
      | succ j2 => simpa using ih m2 j2 (by omega)

/-- `List.getD` at an in-range index is the list element. -/
theorem getD_eq_get {α : Type} (l : List α) (i : ℕ) (d : α)
    (h : i < l.length) : l.getD i d = l.get ⟨i, h⟩ := by
  induction l generalizing i with
  | nil => simp at h
  | cons a t ih =>
    cases i with
    | zero => rfl
    | succ j => simpa using ih j (by simpa using h)

/-- `getE` of `set` at the written index. -/
theorem getE_set_eq (l : List Event) (i : ℕ) (v : Event) (h : i < l.length) :
    getE (l.set i v) i = v := getD_set_self l i v default h

/-- `getE` of `set` at another index. -/
theorem getE_set_neq (l : List Event) (i j : ℕ) (v : Event) (h : i ≠ j) :
    getE (l.set i v) j = getE l j := getD_set_ne l i j v default h

/-- A sifted-up array has the original length. -/
theorem siftUp_length (v : Event) :
    ∀ (hole : ℕ) (l : List Event), (siftUp l v hole).length = l.length := by
  intro hole
  induction hole using Nat.strong_induction_on with
  | _ hole ih =>
    intro l
    cases hole with
    | zero =>
      rw [siftUp]
      exact List.length_set l 0 v
    | succ h =>
      rw [siftUp]
      split
      · rw [ih (h / 2) (by omega), List.length_set]
      · exact List.length_set l (h + 1) v

/-- Correctness of libstdc++ `__push_heap`: if the array with `value`
placed at `hole` satisfies the heap property everywhere except possibly on
the edge into `hole`, and the would-be grandparent bound holds for the
children of `hole`, then the sift-up restores a full heap. -/
theorem siftUp_isHeap (v : Event) :
    ∀ (hole : ℕ) (l : List Event),
      hole < l.length →
      HeapExcept (l.set hole v) hole →
      (0 < hole → ∀ c, c < l.length → par c = hole →
        (getE (l.set hole v) (par hole)).time ≤ (getE (l.set hole v) c).time) →
      IsHeap (siftUp l v hole) := by
  intro hole
  induction hole using Nat.strong_induction_on with
  | _ hole ih =>
    intro l hlen hexc hG
    cases hole with
    | zero =>
      rw [siftUp]
      intro i hi hilen
      exact hexc i hi (by simpa using hilen) (by omega)
    | succ h =>
      have hp_lt : h / 2 < h + 1 := by omega
      have hp_ne : h / 2 ≠ h + 1 := by omega
      have hpar_succ : par (h + 1) = h / 2 := by
        unfold par
        omega
      rw [siftUp]
      split
      · rename_i hcmp
        -- promote the parent into the hole and recurse at the parent
        apply ih (h / 2) hp_lt
        · rw [List.length_set]
          omega
        · -- HeapExcept ((l.set (h+1) (getE l (h/2))).set (h/2) v) (h/2)
          intro i hi hilen hine
          rw [List.length_set, List.length_set] at hilen
          have hbread : ∀ j, j ≠ h / 2 → j ≠ h + 1 →
              getE ((l.set (h + 1) (getE l (h / 2))).set (h / 2) v) j = getE l j := by
            intro j hj1 hj2
            rw [getE_set_neq _ _ _ _ (fun he => hj1 he.symm),
              getE_set_neq _ _ _ _ (fun he => hj2 he.symm)]
          have hbp : getE ((l.set (h + 1) (getE l (h / 2))).set (h / 2) v) (h / 2) = v :=
            getE_set_eq _ _ _ (by rw [List.length_set]; omega)
          have hbh : getE ((l.set (h + 1) (getE l (h / 2))).set (h / 2) v) (h + 1) =
              getE l (h / 2) := by
            rw [getE_set_neq _ _ _ _ hp_ne, getE_set_eq _ _ _ hlen]
          -- facts about the pre-sift array b = l.set (h+1) v
          have hbv : getE (l.set (h + 1) v) (h + 1) = v := getE_set_eq _ _ _ hlen
          have hbo : ∀ j, j ≠ h + 1 → getE (l.set (h + 1) v) j = getE l j := by
            intro j hj
            exact getE_set_neq _ _ _ _ (fun he => hj he.symm)
          by_cases hih : i = h + 1
          · subst hih
            rw [hpar_succ, hbp, hbh]
            exact le_of_lt hcmp
          · by_cases hpari : par i = h + 1
            · -- i is a child of the old hole: grandparent bound
              rw [hbread i hine hih, hpari, hbh]
              have := hG (by omega) i hilen hpari
              rw [hpar_succ] at this
              rw [hbo (h / 2) hp_ne, hbo i hih] at this
              exact this
            · by_cases hpis : par i = h / 2
              · -- i is the sibling of the old hole under the new hole
                rw [hbread i hine hih, hpis, hbp]
                have hsib := hexc i hi (by simpa using hilen) hih
                rw [hpis, hbo (h / 2) hp_ne, hbo i hih] at hsib
                exact le_trans (le_of_lt hcmp) hsib
              · -- untouched edge
                rw [hbread i hine hih, hbread (par i) hpis hpari]
                have hold := hexc i hi (by simpa using hilen) hih
                rw [hbo (par i) hpari, hbo i hih] at hold
                exact hold
        · -- grandparent bound at the new hole h/2
          intro hp_pos c hc hparc
          rw [List.length_set] at hc
          have hcc : c = 2 * (h / 2) + 1 ∨ c = 2 * (h / 2) + 2 := by
            unfold par at hparc
            omega
          have hpp_ne1 : par (h / 2) ≠ h / 2 := by
            unfold par
            omega
          have hpp_ne2 : par (h / 2) ≠ h + 1 := by
            unfold par
            omega
          have hbo : ∀ j, j ≠ h + 1 → getE (l.set (h + 1) v) j = getE l j := by
            intro j hj
            exact getE_set_neq _ _ _ _ (fun he => hj he.symm)
          have hgp : (getE l (par (h / 2))).time ≤ (getE l (h / 2)).time := by
            have hx := hexc (h / 2) hp_pos (by simpa using lt_trans hp_lt hlen) hp_ne
            rw [hbo (par (h / 2)) hpp_ne2, hbo (h / 2) hp_ne] at hx
            exact hx
          rw [getE_set_neq _ _ _ _ (fun he => hpp_ne1 he.symm),
            getE_set_neq _ _ _ _ (fun he => hpp_ne2 he.symm)]
          by_cases hch : c = h + 1
          · subst hch
            rw [getE_set_neq _ _ _ _ hp_ne, getE_set_eq _ _ _ hlen]
            exact hgp
          · have hcp : c ≠ h / 2 := by
              unfold par at hparc
              omega
            rw [getE_set_neq _ _ _ _ (fun he => hcp he.symm),
              getE_set_neq _ _ _ _ (fun he => hch he.symm)]
            have hx := hexc c (by omega) (by simpa using hc) hch
            rw [hparc, hbo (h / 2) hp_ne, hbo c hch] at hx
            exact le_trans hgp hx
      · rename_i hcmp
        -- value stays at the hole: the exempted edge now holds
        intro i hi hilen
        rw [List.length_set] at hilen
        by_cases hih : i = h + 1
        · subst hih
          rw [hpar_succ, getE_set_neq _ _ _ _ (Ne.symm hp_ne),
            getE_set_eq _ _ _ hlen]
          exact not_lt.mp hcmp
        · exact hexc i hi (by simpa using hilen) hih


/-- One promotion step of the `__adjust_heap` down phase: promoting the
minimum-time child `c` into the hole moves the hole to `c` while keeping
the heap property everywhere outside the hole, together with the
grandparent bound at the new hole. -/
theorem adjustDown_step (len : ℕ) (l : List Event) (hole c : ℕ)
    (hlen : len = l.length) (hhole : hole < len) (hc0 : 0 < c)
    (hc : par c = hole) (hcl : c < len)
    (hmin : ∀ s, 0 < s → s < len → par s = hole →
      (getE l c).time ≤ (getE l s).time)
    (hexc : HeapExcept l hole)
    (hG : 0 < hole → ∀ cc, cc < len → par cc = hole →
      (getE l (par hole)).time ≤ (getE l cc).time) :
    HeapExcept (l.set hole (getE l c)) c ∧
    (0 < c → ∀ cc, cc < len → par cc = c →
      (getE (l.set hole (getE l c)) (par c)).time ≤
        (getE (l.set hole (getE l c)) cc).time) := by
  have hole_lt_c : hole < c := by
    unfold par at hc
    omega
  have hread : ∀ j, j ≠ hole → getE (l.set hole (getE l c)) j = getE l j := by
    intro j hj
    exact getE_set_neq _ _ _ _ (fun he => hj he.symm)
  have hhole_read : getE (l.set hole (getE l c)) hole = getE l c :=
    getE_set_eq _ _ _ (by omega)
  constructor
  · intro i hi hilen hine
    rw [List.length_set] at hilen
    by_cases hih : i = hole
    · subst hih
      have hpar_ne : par i ≠ i := by
        unfold par
        omega
      rw [hread (par i) hpar_ne, hhole_read]
      exact hG hi c hcl hc
    · rw [hread i hih]
      by_cases hpari : par i = hole
      · rw [hpari, hhole_read]
        exact hmin i hi (by omega) hpari
      · rw [hread (par i) hpari]
        exact hexc i hi (by omega) hih
  · intro hcpos cc hcc hparcc
    have hcc_ne_hole : cc ≠ hole := by
      unfold par at hparcc
      omega
    have hcc_ne_c : cc ≠ c := by
      unfold par at hparcc
      omega
    rw [hc, hhole_read, hread cc hcc_ne_hole]
    have hx := hexc cc (by unfold par at hparcc; omega) (by omega) hcc_ne_hole
    rw [hparcc] at hx
    exact hx

/-- Correctness of the libstdc++ `__adjust_heap` down phase: starting from
a hole at `hole` in an array whose other edges satisfy the heap property
(plus the grandparent bound at the hole), the hole travels to a leaf and
the result keeps the heap property outside the final hole. -/
theorem adjustDown_spec (len : ℕ) :
    ∀ (n : ℕ) (l : List Event) (hole : ℕ), len - hole ≤ n →
      len = l.length → hole < len →
      HeapExcept l hole →
      (0 < hole → ∀ c, c < len → par c = hole →
        (getE l (par hole)).time ≤ (getE l c).time) →
      (adjustDown len l hole).2 < len ∧
      (adjustDown len l hole).1.length = l.length ∧
      len ≤ 2 * (adjustDown len l hole).2 + 1 ∧
      HeapExcept (adjustDown len l hole).1 (adjustDown len l hole).2 := by
  intro n
  induction n with
  | zero =>
    intro l hole hn hlen hhole
    exact fun _ _ => absurd hhole (by omega)
  | succ n ih =>
    intro l hole hn hlen hhole hexc hG
    rw [adjustDown]
    by_cases hcond : hole < (len - 1) / 2
    · rw [dif_pos hcond]
      simp only []
      have hc2m : 2 * (hole + 1) - 1 = 2 * hole + 1 := by omega
      have hch1 : 2 * hole + 1 < len := by omega
      have hch2 : 2 * hole + 2 < len := by omega
      by_cases hcmp : (getE l (2 * (hole + 1))).time >
          (getE l (2 * (hole + 1) - 1)).time
      · rw [if_pos hcmp]
        rw [hc2m] at hcmp ⊢
        have hstep := adjustDown_step len l hole (2 * hole + 1) hlen hhole
          (by omega) (by unfold par; omega) hch1
          (by
            intro s hs0 hs hpars
            have hs2 : s = 2 * hole + 1 ∨ s = 2 * hole + 2 := by
              unfold par at hpars
              omega
            rcases hs2 with h1 | h1
            · rw [h1]
            · rw [h1]
              have := hcmp
              rw [show 2 * (hole + 1) = 2 * hole + 2 from by omega] at this
              exact le_of_lt this)
          hexc hG
        have hrec := ih (l.set hole (getE l (2 * hole + 1))) (2 * hole + 1)
          (by omega) (by rw [List.length_set]; exact hlen) (by omega)
          hstep.1 (fun _ => hstep.2 (by omega))
        rw [List.length_set] at hrec
        exact hrec
      · rw [if_neg hcmp]
        have hnl : (getE l (2 * (hole + 1))).time ≤
            (getE l (2 * hole + 1)).time := by
          rw [← hc2m]
          exact not_lt.mp hcmp
        have hstep := adjustDown_step len l hole (2 * (hole + 1)) hlen hhole
          (by omega) (by unfold par; omega) (by omega)
          (by
            intro s hs0 hs hpars
            have hs2 : s = 2 * hole + 1 ∨ s = 2 * hole + 2 := by
              unfold par at hpars
              omega
            rcases hs2 with h1 | h1
            · rw [h1]
              exact hnl
            · rw [h1, show 2 * (hole + 1) = 2 * hole + 2 from by omega])
          hexc hG
        have hrec := ih (l.set hole (getE l (2 * (hole + 1)))) (2 * (hole + 1))
          (by omega) (by rw [List.length_set]; exact hlen) (by omega)
          hstep.1 (fun _ => hstep.2 (by omega))
        rw [List.length_set] at hrec
        exact hrec
    · rw [dif_neg hcond]
      by_cases hsp : len % 2 = 0 ∧ 2 ≤ len ∧ hole = (len - 2) / 2
      · rw [if_pos hsp]
        obtain ⟨heven, hlen2, hhole2⟩ := hsp
        have hlast : 2 * (hole + 1) - 1 = len - 1 := by omega
        have hpar_last : par (len - 1) = hole := by
          unfold par
          omega
        refine ⟨by simp only []; omega, List.length_set _ _ _,
          by simp only []; omega, ?_⟩
        intro i hi hilen hine
        rw [List.length_set] at hilen
        rw [hlast] at hine ⊢
        have hread : ∀ j, j ≠ hole →
            getE (l.set hole (getE l (len - 1))) j = getE l j := by
          intro j hj
          exact getE_set_neq _ _ _ _ (fun he => hj he.symm)
        by_cases hih : i = hole
        · subst hih
          have hpar_ne : par i ≠ i := by
            unfold par
            omega
          rw [hread (par i) hpar_ne,
            getE_set_eq _ _ _ (by omega)]
          exact hG hi (len - 1) (by omega) hpar_last
        · rw [hread i hih]
          by_cases hpari : par i = hole
          · exfalso
            unfold par at hpari hpar_last
            omega
          · rw [hread (par i) hpari]
            exact hexc i hi (by omega) hih
      · rw [if_neg hsp]
        exact ⟨hhole, rfl, by omega, hexc⟩

/-- C1 (code bug in the driver/DRR interaction): on the trace consisting of
one 8192-byte read at time 0, with the DRR policy at its default quantum
4096, the main loop terminates (independently of fuel: the `else break`
arm returns) with the scheduler still holding the request: `empty()` is
false at termination, nothing was dispatched, and the metrics record zero
completions — contradicting the claimed termination invariant (and the
driver's own comment that it runs "until all requests have been admitted
and completed"). -/
theorem drr_sim_lost_request :
    drrEmpty finalC1.sched = false ∧
    finalC1.sched.queues = [[readReq 8192]] ∧
    finalC1.i = traceC1.length ∧
    finalC1.queue.heap = [] ∧
    completed_count finalC1.metrics 0 = 0 ∧
    total_bytes finalC1.metrics 0 = 0 ∧
    simRun drrOps traceC1 50 (initSim drrC1 cfgC1) = finalC1 := by
  decide

/-- `WeightedFairScheduler::enqueue` does not change the number of tenant
queues. -/
theorem wfq_enqueue_length (w : WFQState) (r : Request) :
    (wfqEnqueue w r).queues.length = w.queues.length := by
  unfold wfqEnqueue
  split
  · rfl
  · simp [List.length_set]

/-- `WeightedFairScheduler::pick_user` does not change the tenant queues. -/
theorem wfq_pick_queues (w : WFQState) (now : ℚ) :
    (wfqPickUser w now).2.queues = w.queues := by
  unfold wfqPickUser
  split <;> rfl

/-- `WeightedFairScheduler::pop` does not change the number of tenant
queues. -/
theorem wfq_pop_length (w : WFQState) (uid : ℕ) :
    (wfqPop w uid).2.queues.length = w.queues.length := by
  unfold wfqPop
  split
  · rfl
  · split
    · simp [List.length_set]
    · rfl

/-- With no tenant queues, `WeightedFairScheduler::pick_user` returns
nothing and leaves the state unchanged. -/
theorem wfq_pick_empty (w : WFQState) (now : ℚ) (h : w.queues.length = 0) :
    wfqPickUser w now = (none, w) := by
  unfold wfqPickUser
  rw [if_pos (Or.inl h)]

/-- With no tenants, `StartGapScheduler::pick_user` returns nothing and
leaves the state unchanged. -/
theorem sgfs_pick_zero (g : SGFSState WFQState) (now : ℚ) (h : g.users = 0) :
    sgfsPickUser wfqOps g now = (none, g) := by
  unfold sgfsPickUser
  rw [if_pos h]

/-- When the base pick fails, the wrapper pick fails, updating only the
base state. -/
theorem sgfs_pick_none_eq (g : SGFSState WFQState) (now : ℚ) (b2 : WFQState)
    (hz : ¬ g.users = 0) (hbase : wfqPickUser g.base now = (none, b2)) :
    sgfsPickUser wfqOps g now = (none, { g with base := b2 }) := by
  unfold sgfsPickUser
  rw [if_neg hz]
  simp only [wfqOps]
  rw [hbase]

/-- When the base pick returns `uid`, the wrapper pick publishes some
mapped id, records `mapped ↦ uid` in the remap, stores the new base state,
and keeps the tenant count. -/
theorem sgfs_pick_some_eq (g : SGFSState WFQState) (now : ℚ) (uid : ℕ)
    (b2 : WFQState) (hz : ¬ g.users = 0)
    (hbase : wfqPickUser g.base now = (some uid, b2)) :
    ∃ mapped : ℕ,
      (sgfsPickUser wfqOps g now).1 = some mapped ∧
      (sgfsPickUser wfqOps g now).2.base = b2 ∧
      (sgfsPickUser wfqOps g now).2.remap = alInsert g.remap mapped uid ∧
      (sgfsPickUser wfqOps g now).2.users = g.users := by
  unfold sgfsPickUser
  rw [if_neg hz]
  simp only [wfqOps]
  rw [hbase]
  exact ⟨_, rfl, rfl, rfl, rfl⟩

/-- `unordered_map` helpers on the one-entry remap the driver creates. -/
theorem alInsert_nil (k v : ℕ) : alInsert [] k v = [(k, v)] := by
  simp [alInsert]

/-- Lookup of the just-inserted key. -/
theorem alLookup_single (k v : ℕ) : alLookup [(k, v)] k = some v := by
  simp [alLookup]

/-- Erasing the just-inserted key empties the remap. -/
theorem alErase_single (k v : ℕ) : alErase [(k, v)] k = [] := by
  simp [alErase]

/-- `StartGapScheduler::pop` with a remap hit: translates to the base id,
erases the entry and delegates. -/
theorem sgfs_pop_found (g : SGFSState WFQState) (uid actual : ℕ)
    (h : alLookup g.remap uid = some actual) :
    (sgfsPop wfqOps g uid).1 = (wfqPop g.base actual).1 ∧
    (sgfsPop wfqOps g uid).2.base = (wfqPop g.base actual).2 ∧
    (sgfsPop wfqOps g uid).2.remap = alErase g.remap uid ∧
    (sgfsPop wfqOps g uid).2.users = g.users := by
  unfold sgfsPop
  rw [h]
  exact ⟨rfl, rfl, rfl, rfl⟩

/-- Projection lemmas for the operation tables (definitional). -/
theorem wfqOps_pick : wfqOps.pick_user = wfqPickUser := rfl

/-- `wfqOps` pop projection. -/
theorem wfqOps_pop : wfqOps.pop = wfqPop := rfl

/-- `wfqOps` empty projection. -/
theorem wfqOps_empty_eq : wfqOps.empty = wfqEmpty := rfl

/-- `sgfsOps` pick projection. -/
theorem sgfsOps_pick : (sgfsOps wfqOps).pick_user = sgfsPickUser wfqOps := rfl

/-- `sgfsOps` pop projection. -/
theorem sgfsOps_pop : (sgfsOps wfqOps).pop = sgfsPop wfqOps := rfl

/-- One dispatch-loop pass preserves the SGFS/WFQ driver relation. -/
theorem dispatchLoop_rel (f : ℕ) :
    ∀ (s : SimState (SGFSState WFQState)) (t : SimState WFQState),
      SimRel s t →
      SimRel (dispatchLoop (sgfsOps wfqOps) f s) (dispatchLoop wfqOps f t) := by
  induction f with
  | zero => exact fun s t h => h
  | succ f ih =>
    intro s t h
    obtain ⟨⟨hbase, hremap, husers⟩, hdev, hq, hmet, hi, hnow⟩ := h
    unfold dispatchLoop
    rw [hdev, hq, hmet, hi, hnow]
    cases hch : first_free_channel t.device t.now with
    | none => exact ⟨⟨hbase, hremap, husers⟩, hdev, hq, hmet, hi, hnow⟩
    | some chan =>
      simp only [sgfsOps_pick, sgfsOps_pop, wfqOps_pick, wfqOps_pop]
      by_cases hz : s.sched.users = 0
      · have hwlen : t.sched.queues.length = 0 := by omega
        rw [wfq_pick_empty t.sched t.now hwlen, sgfs_pick_zero s.sched t.now hz]
        exact ⟨⟨hbase, hremap, husers⟩, rfl, rfl, rfl, rfl, rfl⟩
      · obtain ⟨o, b2, hwpick⟩ : ∃ o b2, wfqPickUser t.sched t.now = (o, b2) :=
          ⟨_, _, rfl⟩
        have hbpick : wfqPickUser s.sched.base t.now = (o, b2) := by
          rw [hbase]; exact hwpick
        have hb2q : b2.queues = t.sched.queues := by
          have hpq := wfq_pick_queues t.sched t.now
          rw [hwpick] at hpq
          exact hpq
        rcases o with _ | uw
        · rw [sgfs_pick_none_eq s.sched t.now b2 hz hbpick]
          simp only [hwpick]
          exact ⟨⟨rfl, hremap, by rw [hb2q]; exact husers⟩, rfl, rfl, rfl,
            rfl, rfl⟩
        · obtain ⟨mapped, hp1, hp2, hp3, hp4⟩ :=
            sgfs_pick_some_eq s.sched t.now uw b2 hz hbpick
          obtain ⟨og, g2, hpair⟩ : ∃ og g2,
              sgfsPickUser wfqOps s.sched t.now = (og, g2) := ⟨_, _, rfl⟩
          rw [hpair] at hp1 hp2 hp3 hp4
          simp only at hp1 hp2 hp3 hp4
          subst hp1
          simp only [hwpick, hpair]
          have hlook : alLookup g2.remap mapped = some uw := by
            rw [hp3, hremap, alInsert_nil]
            exact alLookup_single mapped uw
          obtain ⟨hq1, hq2, hq3, hq4⟩ := sgfs_pop_found g2 mapped uw hlook
          rw [hp2] at hq1 hq2
          obtain ⟨ro, b3, hwpop⟩ : ∃ ro b3, wfqPop b2 uw = (ro, b3) :=
            ⟨_, _, rfl⟩
          rw [hwpop] at hq1 hq2
          have hb3q : b3.queues.length = b2.queues.length := by
            have hpl := wfq_pop_length b2 uw
            rw [hwpop] at hpl
            exact hpl
          obtain ⟨rg, g3, hgpop⟩ : ∃ rg g3,
              sgfsPop wfqOps g2 mapped = (rg, g3) := ⟨_, _, rfl⟩
          rw [hgpop] at hq1 hq2 hq3 hq4
          simp only at hq1 hq2 hq3 hq4
          subst hq1
          simp only [hwpop, hgpop]
          have hrel3 : SGRel g3 b3 := by
            refine ⟨hq2, ?_, ?_⟩
            · rw [hq3, hp3, hremap, alInsert_nil]
              exact alErase_single mapped uw
            · rw [hq4, hp4, husers, ← hb2q, hb3q]
          rcases rg with _ | req
          · exact ⟨hrel3, rfl, rfl, rfl, rfl, rfl⟩
          · simp only []
            cases hdp : ssd_dispatch t.device (chan : ℤ)
                { req with start_ts := t.now } t.now with
            | error e => exact ⟨hrel3, rfl, rfl, rfl, rfl, rfl⟩
            | ok p => exact ih _ _ ⟨hrel3, rfl, rfl, rfl, rfl, rfl⟩

/-- Enqueueing preserves the SGFS/WFQ simulation relation. -/
theorem sgfs_enqueue_rel (g : SGFSState WFQState) (w : WFQState) (r : Request)
    (h : SGRel g w) :
    SGRel ((sgfsOps wfqOps).enqueue g r) (wfqEnqueue w r) := by
  obtain ⟨hb, hm, hu⟩ := h
  refine ⟨?_, hm, ?_⟩
  · show wfqEnqueue g.base r = wfqEnqueue w r
    rw [hb]
  · rw [wfq_enqueue_length]
    exact hu

/-- The arrival-admission pass preserves the SGFS/WFQ driver relation. -/
theorem admitAux_rel (trace : List Request) (k : ℕ) :
    ∀ (s : SimState (SGFSState WFQState)) (t : SimState WFQState),
      SimRel s t →
      SimRel (admitAux (sgfsOps wfqOps) trace k s) (admitAux wfqOps trace k t) := by
  induction k with
  | zero => exact fun s t h => h
  | succ k ih =>
    intro s t h
    obtain ⟨hs, hdev, hq, hmet, hi, hnow⟩ := h
    unfold admitAux
    rw [hdev, hq, hmet, hi, hnow]
    by_cases hc : t.i < trace.length ∧ (trace.getD t.i default).arrival_ts ≤ t.now
    · simp only [if_pos hc]
      exact ih _ _ ⟨sgfs_enqueue_rel s.sched t.sched _ hs, rfl, rfl, rfl,
        rfl, rfl⟩
    · simp only [if_neg hc]
      exact ⟨hs, hdev, hq, hmet, hi, hnow⟩

/-- The full driver loop preserves the SGFS/WFQ relation for any fuel. -/
theorem simRun_rel (trace : List Request) (fuel : ℕ) :
    ∀ (s : SimState (SGFSState WFQState)) (t : SimState WFQState),
      SimRel s t →
      SimRel (simRun (sgfsOps wfqOps) trace fuel s) (simRun wfqOps trace fuel t) := by
  induction fuel with
  | zero => exact fun s t h => h
  | succ fuel ih =>
    intro s t h
    have hrel1 : SimRel (admitArrivals (sgfsOps wfqOps) trace s)
        (admitArrivals wfqOps trace t) := by
      unfold admitArrivals
      rw [h.2.2.2.2.1]
      exact admitAux_rel trace _ s t h
    have hrel2 := dispatchLoop_rel (trace.length + 1) _ _ hrel1
    obtain ⟨hs, hdev, hq, hmet, hi, hnow⟩ := h
    obtain ⟨hs2, hdev2, hq2, hmet2, hi2, hnow2⟩ := hrel2
    unfold simRun
    have hemp : (sgfsOps wfqOps).empty s.sched = wfqOps.empty t.sched := by
      show wfqEmpty s.sched.base = wfqEmpty t.sched
      rw [hs.1]
    rw [hq, hi, hemp]
    by_cases hc : t.i < trace.length ∨ wfqOps.empty t.sched = false ∨
        eqEmpty t.queue = false
    · simp only [if_pos hc]
      rw [hq2, hmet2, hi2, hdev2]
      cases hpop : evPop (dispatchLoop wfqOps (trace.length + 1)
          (admitArrivals wfqOps trace t)).queue with
      | none =>
        by_cases hcc : (dispatchLoop wfqOps (trace.length + 1)
            (admitArrivals wfqOps trace t)).i < trace.length
        · simp only [if_pos hcc]
          exact ih _ _ ⟨hs2, rfl, rfl, rfl, rfl, rfl⟩
        · simp only [if_neg hcc]
          exact ⟨hs2, hdev2, hq2, hmet2, hi2, hnow2⟩
      | some p =>
        exact ih _ _ ⟨hs2, rfl, rfl, rfl, rfl, rfl⟩
    · simp only [if_neg hc]
      exact ⟨hs, hdev, hq, hmet, hi, hnow⟩

/-- C4: running the full simulation with the SGFS scheduler (the
`StartGapScheduler` over a `WeightedFairScheduler`, rotation period 200,
gap 1, exactly as `main` builds it for `--scheduler sgfs`) produces, for
every tenant and any trace, configuration, optional weight vector and
fuel, the same aggregate served bytes as the bare WFQ run — and in fact an
identical metrics state. -/
theorem sgfs_wfq_total_bytes (trace : List Request) (cfg : SimConfig)
    (n : ℕ) (ow : Option (List ℚ)) (fuel : ℕ) (u : ℤ) :
    total_bytes (simRun (sgfsOps wfqOps) trace fuel
      (initSim (sgfsApplyWeights (mkSGFS (wfqSetUsers wfqInit n) 200 1 n) ow)
        cfg)).metrics u =
    total_bytes (simRun wfqOps trace fuel
      (initSim (wfqApplyWeights (wfqSetUsers wfqInit n) ow) cfg)).metrics u := by
  have hinit : SimRel
      (initSim (sgfsApplyWeights (mkSGFS (wfqSetUsers wfqInit n) 200 1 n) ow) cfg)
      (initSim (wfqApplyWeights (wfqSetUsers wfqInit n) ow) cfg) := by
    refine ⟨⟨?_, ?_, ?_⟩, rfl, rfl, rfl, rfl, rfl⟩
    · cases ow <;> rfl
    · cases ow <;> rfl
    · show (sgfsApplyWeights (mkSGFS (wfqSetUsers wfqInit n) 200 1 n) ow).users =
        (wfqApplyWeights (wfqSetUsers wfqInit n) ow).queues.length
      cases ow with
      | none => simp [sgfsApplyWeights, wfqApplyWeights, mkSGFS, wfqSetUsers]
      | some ws =>
        simp [sgfsApplyWeights, wfqApplyWeights, mkSGFS, wfqSetUsers,
          wfqSetWeights]
        split <;> simp
  have h := simRun_rel trace fuel _ _ hinit
  rw [h.2.2.2.1]



/-- Correctness of libstdc++ `__adjust_heap`: down phase to a leaf followed
by `__push_heap` restores a full heap from an array whose edges all hold
outside the root hole. -/
theorem adjustHeap_isHeap (len : ℕ) (l : List Event) (value : Event)
    (hlen : len = l.length) (hpos : 0 < len) (hexc : HeapExcept l 0) :
    IsHeap (adjustHeap len l value) := by
  unfold adjustHeap
  obtain ⟨h1, h2, h3, h4⟩ := adjustDown_spec len (len - 0) l 0 (by omega)
    hlen hpos hexc (by omega)
  apply siftUp_isHeap
  · rw [h2, ← hlen]
    exact h1
  · intro i hi hilen hine
    rw [List.length_set, h2, ← hlen] at hilen
    have hpar_ne : par i ≠ (adjustDown len l 0).2 := by
      intro hpe
      unfold par at hpe
      omega
    rw [getE_set_neq _ _ _ _ (fun he => hine he.symm),
      getE_set_neq _ _ _ _ (fun he => hpar_ne he.symm)]
    exact h4 i hi (by rw [h2, ← hlen]; exact hilen) hine
  · intro hpos2 c hc hparc
    exfalso
    rw [h2, ← hlen] at hc
    unfold par at hparc
    omega

/-- `EventQueue::push` preserves the heap invariant. -/
theorem evPush_isHeap (q : EventQueue) (e : Event) (h : IsHeap q.heap) :
    IsHeap (evPush q e).heap := by
  unfold evPush
  apply siftUp_isHeap
  · simp
  · intro i hi hilen hine
    rw [List.length_set, List.length_append] at hilen
    have hilt : i < q.heap.length := by
      simp at hilen
      omega
    have hpar_lt : par i < q.heap.length := by
      unfold par
      omega
    have hgetset : ∀ j, j < q.heap.length →
        getE ((q.heap ++ [e]).set q.heap.length e) j = getE q.heap j := by
      intro j hj
      rw [getE_set_neq _ _ _ _ (by omega)]
      exact getD_append_left _ _ _ _ hj
    rw [hgetset i hilt, hgetset (par i) hpar_lt]
    exact h i hi hilt
  · intro hpos c hc hparc
    exfalso
    rw [List.length_append] at hc
    unfold par at hparc
    simp at hc
    omega

/-- `EventQueue::pop` preserves the heap invariant. -/
theorem evPop_isHeap (q : EventQueue) (h : IsHeap q.heap)
    (e : Event) (q2 : EventQueue) (hpop : evPop q = some (e, q2)) :
    IsHeap q2.heap := by
  unfold evPop at hpop
  rcases hheap : q.heap with _ | ⟨e0, rest⟩
  · rw [hheap] at hpop
    simp at hpop
  · rw [hheap] at hpop
    simp only at hpop
    by_cases hrest : rest = []
    · rw [if_pos hrest] at hpop
      have : q2 = emptyEQ := by
        injection hpop with hp
        injection hp with hp1 hp2
        exact hp2.symm
      rw [this]
      intro i hi hilen
      simp [emptyEQ] at hilen
    · rw [if_neg hrest] at hpop
      have hq2 : q2.heap = adjustHeap (q.heap.length - 1)
          (q.heap.take (q.heap.length - 1)) (getE q.heap (q.heap.length - 1)) := by
        rw [hheap]
        injection hpop with hp
        injection hp with hp1 hp2
        rw [← hp2]
      have hlen2 : 2 ≤ q.heap.length := by
        rw [hheap]
        cases rest with
        | nil => exact absurd rfl hrest
        | cons b t => simp
      rw [hq2]
      apply adjustHeap_isHeap
      · rw [List.length_take]
        omega
      · omega
      · intro i hi hilen hine
        rw [List.length_take] at hilen
        have hib : i < q.heap.length - 1 := by omega
        have hpb : par i < q.heap.length - 1 := by
          unfold par
          omega
        unfold getE
        rw [getD_take _ _ _ _ hib, getD_take _ _ _ _ hpb]
        exact h i hi (by omega)

/-- In a heap array the root has the minimum time. -/
theorem isHeap_root_min (l : List Event) (h : IsHeap l) :
    ∀ i, i < l.length → (getE l 0).time ≤ (getE l i).time := by
  intro i
  induction i using Nat.strong_induction_on with
  | _ i ih =>
    intro hi
    rcases Nat.eq_zero_or_pos i with h0 | hpos
    · subst h0
      exact le_refl _
    · have hpar_lt : par i < i := by
        unfold par
        omega
      exact le_trans (ih (par i) hpar_lt (by omega)) (h i hpos hi)

/-- Every queue reachable by a sequence of pushes and pops satisfies the
heap invariant. -/
theorem runEQ_isHeap (ops : List EQOp) : IsHeap (runEQ ops).heap := by
  induction ops with
  | nil =>
    intro i hi hilen
    simp [runEQ, emptyEQ] at hilen
  | cons op t ih =>
    cases op with
    | pushOp e =>
      show IsHeap (evPush (runEQ t) e).heap
      exact evPush_isHeap _ _ ih
    | popOp =>
      show IsHeap (match evPop (runEQ t) with
        | none => runEQ t
        | some p => p.2).heap
      cases hpop : evPop (runEQ t) with
      | none => exact ih
      | some p => exact evPop_isHeap (runEQ t) ih p.1 p.2 (by rw [hpop])

/-- C3 counterexample: pushing four events with equal time 1 tagged by
channels 0, 1, 2, 3 (in that order) and popping twice returns the events
tagged 0 and then 2, although the event tagged 1 has the same time, was
pushed earlier than tag 2, and is still pending — so equal-time events are
not popped in FIFO insertion order. -/
theorem event_queue_fifo_cex :
    evPop eqCex = some (tagEv 0, { heap := [tagEv 2, tagEv 1, tagEv 3] }) ∧
    evPop { heap := [tagEv 2, tagEv 1, tagEv 3] } =
      some (tagEv 2, { heap := [tagEv 1, tagEv 3] }) ∧
    (tagEv 1).time = (tagEv 2).time ∧
    tagEv 1 ≠ tagEv 2 := by
  refine ⟨?_, ?_, by decide, by decide⟩
  · show evPop eqCex = _
    simp +decide [eqCex, evPush, tagEv, emptyEQ, siftUp, evPop, adjustHeap,
      adjustDown, getE]
  · simp +decide [tagEv, evPop, adjustHeap, adjustDown, siftUp, getE]

/-- C3 amended: for every sequence of event-queue operations, a successful
pop returns an event whose time is minimal among all pending events (the
libstdc++ binary heap maintains the min-heap property); ties between
equal-time events are resolved by heap order, not FIFO insertion order. -/
theorem event_queue_pop_min (ops : List EQOp) (e : Event) (q2 : EventQueue)
    (hpop : evPop (runEQ ops) = some (e, q2)) :
    ∀ x ∈ (runEQ ops).heap, e.time ≤ x.time := by
  have hheap := runEQ_isHeap ops
  have hroot : e = getE (runEQ ops).heap 0 := by
    unfold evPop at hpop
    rcases hh : (runEQ ops).heap with _ | ⟨e0, rest⟩
    · rw [hh] at hpop
      simp at hpop
    · rw [hh] at hpop
      simp only at hpop
      by_cases hrest : rest = []
      · rw [if_pos hrest] at hpop
        injection hpop with hp
        injection hp with hp1 hp2
        rw [← hp1]
        rfl
      · rw [if_neg hrest] at hpop
        injection hpop with hp
        injection hp with hp1 hp2
        rw [← hp1]
        rfl
  intro x hx
  obtain ⟨i, hxi⟩ := List.mem_iff_get.mp hx
  have hgd : getE (runEQ ops).heap i = x := by
    unfold getE
    rw [getD_eq_get _ _ _ i.isLt]
    exact hxi
  rw [hroot, ← hgd]
  exact isHeap_root_min _ hheap i i.isLt

/-- Witness for `event_queue_pop_min`: pushing an event at time 5 and then
one at time 1, the pop returns the time-1 event, minimal among pending. -/
theorem event_queue_pop_min_witness :
    evPop (runEQ [EQOp.pushOp (mkEv 1 3), EQOp.pushOp (mkEv 5 4)]) =
      some (mkEv 1 3, { heap := [mkEv 5 4] }) ∧
    ∀ x ∈ (runEQ [EQOp.pushOp (mkEv 1 3), EQOp.pushOp (mkEv 5 4)]).heap,
      (mkEv 1 3).time ≤ x.time := by
  constructor
  · show evPop (evPush (evPush emptyEQ (mkEv 5 4)) (mkEv 1 3)) = _
    simp +decide [evPush, mkEv, emptyEQ, siftUp, evPop, adjustHeap,
      adjustDown, getE]
  · exact event_queue_pop_min [EQOp.pushOp (mkEv 1 3), EQOp.pushOp (mkEv 5 4)]
      (mkEv 1 3) { heap := [mkEv 5 4] }
      (by
        show evPop (evPush (evPush emptyEQ (mkEv 5 4)) (mkEv 1 3)) = _
        simp +decide [evPush, mkEv, emptyEQ, siftUp, evPop, adjustHeap,
          adjustDown, getE])

end SSim
